import Mathlib

/-!
# urlfinder: link extraction, loader, worker and collector

A verification development for `main.go` of `www3b/urlfinder`.

Conventions of the embedding.

* A Go `string` / `[]byte` is a `List Char`, one element per byte (ASCII text is
  written literally).  The link pattern is pure ASCII, so a byte outside ASCII
  is never part of the scheme literal nor of the character class; matching is
  therefore the same whether the engine looks at bytes or at decoded runes.
* Library calls made by `main.go` (`regexp`, `bufio`, `os.File`) are embedded
  as executable functions that follow the library's control flow.
* Positions are `Nat` offsets into the body.
-/

namespace Urlfinder

/-! ## Link extraction (`main.go` lines 34-35 and 60) -/

/-- The literal head of `linkPattern`: the eight bytes of `https://`. -/
def scheme : List Char := ['h', 't', 't', 'p', 's', ':', '/', '/']

/-- Membership in the character class `[a-zA-Z0-9./?=_-]` of `linkPattern`:
three ranges and six literals (the final `-` is a literal). -/
def isLinkChar (c : Char) : Bool :=
  ('a' ≤ c && c ≤ 'z') || ('A' ≤ c && c ≤ 'Z') || ('0' ≤ c && c ≤ '9') ||
  c == '.' || c == '/' || c == '?' || c == '=' || c == '_' || c == '-'

/-- One anchored run of the compiled pattern `https://[a-zA-Z0-9./?=_-]+` on the
input `s`: the literal, then the greedy `+` over the class.  Returns the length
of the match that starts at the head of `s`, if there is one. -/
def matchHere (s : List Char) : Option Nat :=
  if scheme.isPrefixOf s then
    let run := (s.drop scheme.length).takeWhile isLinkChar
    if run.length = 0 then none else some (scheme.length + run.length)
  else none

/-- The unanchored search of `regexp`: the leftmost position at or after `pos`
where the pattern matches, with the end of the (greedy) match there.  `s` is
the input from offset `pos` on. -/
def doExecute : List Char → Nat → Option (Nat × Nat)
  | [], _ => none
  | c :: cs, pos =>
    match matchHere (c :: cs) with
    | some len => some (pos, pos + len)
    | none => doExecute cs (pos + 1)

/-- The loop of `Regexp.allMatches`: at most `n` matches, each search resuming
at the end of the previous match (`pos = matches[1]`).  The branch of the
library loop for an empty match is not reachable with this pattern, whose
matches have at least nine bytes. -/
def allMatches (body : List Char) : Nat → Nat → List (Nat × Nat)
  | 0, _ => []
  | n + 1, pos =>
    match doExecute (body.drop pos) pos with
    | none => []
    | some (b, e) => (b, e) :: allMatches body n e

/-- The slice `s[b:e]`. -/
def slice (s : List Char) (b e : Nat) : List Char := (s.drop b).take (e - b)

/-- The call `linkRegex.FindAllStringIndex(body, -1)`: a negative `n` is replaced by
`len(body) + 1`. -/
def FindAllStringIndex (body : List Char) : List (Nat × Nat) :=
  allMatches body (body.length + 1) 0

/-- The call `linkRegex.FindAllString(string(body), -1)` of line 60: the slices of
the body at the match positions, in the order found. -/
def FindAllString (body : List Char) : List (List Char) :=
  (FindAllStringIndex body).map (fun m => slice body m.1 m.2)

/-! ## The output file and its buffered writer (`main.go` lines 81-100) -/

/-- The output file as the collector sees it: the bytes it holds, and what the
operating system will answer to the coming `Write` calls, in order (`none`: the
whole slice is written; `some k`: an error after `k` bytes, at most the length
of the slice).  Calls beyond the list succeed. -/
structure File where
  data : List Char
  faults : List (Option Nat)
deriving DecidableEq, Repr

/-- The call `(*os.File).Write(p)`: the new file, the count `n` and whether `err != nil`. -/
def File.Write (f : File) (p : List Char) : File × Nat × Bool :=
  match f.faults with
  | [] => ({ data := f.data ++ p, faults := [] }, p.length, false)
  | none :: rest => ({ data := f.data ++ p, faults := rest }, p.length, false)
  | some k :: rest =>
    ({ data := f.data ++ p.take (min k p.length), faults := rest }, min k p.length, true)

/-- The size `bufio.NewWriter` gives its buffer (`defaultBufSize`). -/
def defaultBufSize : Nat := 4096

/-- A `bufio.Writer`: `buf` is `b.buf[0:b.n]`, `err` is `b.err != nil` (sticky),
`wr` the file underneath. -/
structure Writer where
  buf : List Char
  err : Bool
  wr : File
deriving DecidableEq, Repr

/-- The writer has recorded no error and the file will fail no coming write. -/
def Writer.Good (b : Writer) : Prop := b.err = false ∧ ∀ x ∈ b.wr.faults, x = none

/-- The call `bufio.NewWriter(file)` of line 88. -/
def NewWriter (file : File) : Writer := { buf := [], err := false, wr := file }

/-- The method `Writer.Available`: free bytes in the buffer. -/
def Writer.Available (b : Writer) : Nat := defaultBufSize - b.buf.length

/-- The method `Writer.Flush`: returns the writer and whether the returned error is non-nil.
A failed write keeps the unwritten tail in the buffer and records the error. -/
def Writer.Flush (b : Writer) : Writer × Bool :=
  if b.err then (b, true)
  else if b.buf.length = 0 then (b, false)
  else
    match b.wr.Write b.buf with
    | (f, n, e) =>
      if e || decide (n < b.buf.length) then
        ({ buf := b.buf.drop n, err := true, wr := f }, true)
      else ({ buf := [], err := false, wr := f }, false)

/-- One pass through the body of the `for` loop of `Writer.WriteString`: with an
empty buffer the string goes straight to the file (which has a `WriteString`
method), otherwise what fits is copied into the buffer and the buffer is
flushed.  Returns the writer and the count `n` of bytes taken from `s`. -/
def Writer.writeStringStep (b : Writer) (s : List Char) : Writer × Nat :=
  if b.buf.length = 0 then
    match b.wr.Write s with
    | (f, n, e) => ({ b with wr := f, err := e }, n)
  else
    let n := min b.Available s.length
    (({ b with buf := b.buf ++ s.take n } : Writer).Flush.1, n)

/-- The loop `for len(s) > b.Available() && b.err == nil` of `Writer.WriteString`,
with `nn` the running count; `none` when the fuel runs out before the loop
condition fails. -/
def Writer.writeStringLoop : Nat → Writer → List Char → Nat → Option (Writer × List Char × Nat)
  | 0, _, _, _ => none
  | fuel + 1, b, s, nn =>
    if decide (s.length > b.Available) && !b.err then
      match b.writeStringStep s with
      | (b1, n) => Writer.writeStringLoop fuel b1 (s.drop n) (nn + n)
    else some (b, s, nn)

/-- The method `Writer.WriteString(s)`: the writer, the count `nn` and whether the error
is non-nil. -/
def Writer.WriteString (b : Writer) (s : List Char) : Option (Writer × Nat × Bool) :=
  match Writer.writeStringLoop (s.length + 3) b s 0 with
  | none => none
  | some (b1, s1, nn) =>
    if b1.err then some (b1, nn, true)
    else some ({ b1 with buf := b1.buf ++ s1.take b1.Available },
      nn + min b1.Available s1.length, false)

/-! ## The collector (`main.go` lines 88-100) -/

/-- A message the program prints on standard output. -/
inductive Msg where
  | readListError                 -- line 30, "Error reading URL list file: ..."
  | fetchError (url : List Char)  -- line 49, "Error fetching URL ...: ..."
  | bodyError (url : List Char)   -- line 56, "Error reading response body for URL ...: ..."
  | createError                   -- line 83, "Error creating output file: ..."
  | writeError                    -- line 93, "Error writing to output file: ..."
  | success                       -- line 100, "Links successfully written to ..."
deriving DecidableEq, Repr

/-- The inner loop of lines 90-96 over the links of one Result: the writer
afterwards, and whether a `WriteString` returned an error (then `main` returns). -/
def writeLinks : Writer → List (List Char) → Option (Writer × Bool)
  | b, [] => some (b, false)
  | b, link :: rest =>
    match b.WriteString (link ++ ['\n']) with
    | none => none
    | some (b1, _, true) => some (b1, true)
    | some (b1, _, false) => writeLinks b1 rest

/-- The loop of lines 89-100 over the Results received from `linkCh` until it is
closed: the writer at the end and the messages printed.  The value of
`writer.Flush()` on line 97 is dropped. -/
def collectLoop : Writer → List (List (List Char)) → Option (Writer × List Msg)
  | b, [] => some (b, [Msg.success])
  | b, links :: rest =>
    match writeLinks b links with
    | none => none
    | some (b1, true) => some (b1, [Msg.writeError])
    | some (b1, false) => collectLoop b1.Flush.1 rest

/-- The collector on a freshly created output file: the file when `main` returns
(what is still in the buffer is not written) and the messages printed. -/
def collector (file : File) (results : List (List (List Char))) : Option (File × List Msg) :=
  match collectLoop (NewWriter file) results with
  | none => none
  | some (b, out) => some (b.wr, out)

/-- What `os.Create` hands over when it succeeds: an empty file. -/
def createdFile (faults : List (Option Nat)) : File := { data := [], faults := faults }

/-- Each link followed by one newline, concatenated: Results in arrival order,
links in match order. -/
def linesText (results : List (List (List Char))) : List Char :=
  (results.flatten.map (fun link => link ++ ['\n'])).flatten

/-! ## One worker (`main.go` lines 46-62) -/

/-- What the network does for one URL: `http.Get` returns an error, or the
response arrives and `ioutil.ReadAll` fails, or the whole body is read. -/
inductive FetchOutcome where
  | getError
  | readError
  | body (b : List Char)
deriving DecidableEq, Repr

/-- Whether the fetch gives no body. -/
def FetchOutcome.failed : FetchOutcome → Bool
  | .getError => true
  | .readError => true
  | .body _ => false

/-- The Result a fetch outcome makes the worker send, if any. -/
def FetchOutcome.result : FetchOutcome → Option (List (List Char))
  | .body b => some (FindAllString b)
  | _ => none

/-- The message a fetch outcome makes the worker print for a URL, if any. -/
def FetchOutcome.message (url : List Char) : FetchOutcome → Option Msg
  | .getError => some (Msg.fetchError url)
  | .readError => some (Msg.bodyError url)
  | .body _ => none

/-- The loop `for url := range urlCh` of one worker that receives the given
URLs, each with what the network does for it: the Results sent on `linkCh`, in
order, and the messages printed.  Both error branches `continue`. -/
def worker : List (List Char × FetchOutcome) → List (List (List Char)) × List Msg
  | [] => ([], [])
  | (url, .getError) :: rest =>
    ((worker rest).1, Msg.fetchError url :: (worker rest).2)
  | (url, .readError) :: rest =>
    ((worker rest).1, Msg.bodyError url :: (worker rest).2)
  | (_, .body b) :: rest =>
    (FindAllString b :: (worker rest).1, (worker rest).2)

/-! ## The loader (`main.go` lines 103-120) -/

/-- An error value of the scanner or of the file underneath (`nil` is `none`). -/
inductive ScanErr where
  | eof        -- io.EOF
  | io         -- an error of the operating system (open or read)
  | tooLong    -- bufio.ErrTooLong
deriving DecidableEq, Repr

/-- The input file once opened: `rest` are the bytes the coming reads deliver,
`broken` tells whether the read after them fails (instead of reporting the end
of the file), and `sizes` bounds the coming reads, in order (`k` allows at most
`k + 1` bytes); reads beyond the list fill the slice they are given. -/
structure Reader where
  rest : List Char
  broken : Bool
  sizes : List Nat
deriving DecidableEq, Repr

/-- The call `(*os.File).Read(p)` with `len(p) = cap > 0`: the reader afterwards, the bytes
stored and the error.  A read that stores bytes reports no error. -/
def Reader.Read (r : Reader) (cap : Nat) : Reader × List Char × Option ScanErr :=
  if r.rest.length = 0 then
    (r, [], some (if r.broken then ScanErr.io else ScanErr.eof))
  else
    let n := match r.sizes with
      | [] => min cap r.rest.length
      | k :: _ => min cap (min (k + 1) r.rest.length)
    ({ r with rest := r.rest.drop n, sizes := r.sizes.tail }, r.rest.take n, none)

/-- The helper `dropCR` of `bufio`: drops one final carriage return. -/
def dropCR (data : List Char) : List Char :=
  if data.getLast? = some '\r' then data.dropLast else data

/-- The function `bytes.IndexByte`: the index of the first `c` in `data`, if any. -/
def indexByte : List Char → Char → Option Nat
  | [], _ => none
  | x :: xs, c => if x = c then some 0 else (indexByte xs c).map (fun i => i + 1)

/-- The split function `bufio.ScanLines`: how far to advance and the token (`none`
is a `nil` token, a request for more data).  It returns no error. -/
def ScanLines (data : List Char) (atEOF : Bool) : Nat × Option (List Char) :=
  if atEOF && data.length = 0 then (0, none)
  else
    match indexByte data '\n' with
    | some i => (i + 1, some (dropCR (data.take i)))
    | none => if atEOF then (data.length, some (dropCR data)) else (0, none)

/-- The constant `bufio.MaxScanTokenSize`. -/
def maxTokenSize : Nat := 64 * 1024

/-- The constant `startBufSize` of `bufio`. -/
def startBufSize : Nat := 4096

/-- A `bufio.Scanner` over the file: `cap` is `len(s.buf)`, `held` is
`s.buf[s.start:s.end]`, `err` is `s.err`, `token` the last token.  The fields
that only serve other split functions (`done`, `empties`) are left out:
`ScanLines` returns no error and never returns a token without advancing. -/
structure Scanner where
  r : Reader
  cap : Nat
  start : Nat
  held : List Char
  err : Option ScanErr
  token : Option (List Char)
deriving DecidableEq, Repr

/-- The call `bufio.NewScanner(file)`: no buffer yet. -/
def NewScanner (r : Reader) : Scanner :=
  { r := r, cap := 0, start := 0, held := [], err := none, token := none }

/-- The index `s.end`. -/
def Scanner.stop (s : Scanner) : Nat := s.start + s.held.length

/-- The buffer indices of a scanner are in range. -/
def Scanner.WF (s : Scanner) : Prop := s.stop ≤ s.cap ∧ s.cap ≤ maxTokenSize

/-- The method `Scanner.setErr`: the first error that is not `io.EOF` is kept. -/
def Scanner.setErr (s : Scanner) (e : ScanErr) : Scanner :=
  if s.err = none ∨ s.err = some ScanErr.eof then { s with err := some e } else s

/-- The part of the loop of `Scanner.Scan` that makes room: the data is moved to the
front of the buffer when that frees space that is needed or large, and a full
buffer is doubled up to `maxTokenSize`; `none` when it is full at that size. -/
def Scanner.makeRoom (s : Scanner) : Option Scanner :=
  let s1 : Scanner :=
    if s.start > 0 ∧ (s.stop = s.cap ∨ s.start > s.cap / 2) then { s with start := 0 } else s
  if s1.stop = s1.cap then
    if s1.cap ≥ maxTokenSize then none
    else
      let newSize := if s1.cap * 2 = 0 then startBufSize else s1.cap * 2
      some { s1 with cap := min newSize maxTokenSize, start := 0 }
  else some s1

/-- The read of the loop of `Scanner.Scan`: one `Read` into the free end of the buffer.
(A read of this file that stores nothing reports an error, so the inner retry
loop runs once.) -/
def Scanner.fill (s : Scanner) : Scanner :=
  match s.r.Read (s.cap - s.stop) with
  | (r1, bytes, e) =>
    let s1 : Scanner := { s with r := r1, held := s.held ++ bytes }
    match e with
    | some err => s1.setErr err
    | none => s1

/-- The test `s.end > s.start || s.err != nil` at the head of the loop of `Scanner.Scan`. -/
def Scanner.canSplit (s : Scanner) : Bool :=
  decide (s.held.length > 0) || s.err.isSome

/-- The call of the split function on what is held, followed by `s.advance` and the
assignment of `s.token`. -/
def Scanner.split (s : Scanner) : Scanner :=
  { s with
    start := s.start + (ScanLines s.held s.err.isSome).1
    held := s.held.drop (ScanLines s.held s.err.isSome).1
    token := (ScanLines s.held s.err.isSome).2 }

/-- The head of the loop of `Scanner.Scan`: the split function is tried when something is
held or an error (the end of the file included) is recorded. -/
def Scanner.afterSplit (s : Scanner) : Scanner := if s.canSplit then s.split else s

/-- The loop of `Scanner.Scan`, with the value it returns; `none` when the fuel runs
out first. -/
def Scanner.scanLoop : Nat → Scanner → Option (Scanner × Bool)
  | 0, _ => none
  | fuel + 1, s =>
    -- See if a token can be made with what is held.
    let s1 : Scanner := s.afterSplit
    if s.canSplit && s1.token.isSome then some (s1, true)
    -- No token: stop at the end of the input or after an error.
    else if s1.err.isSome then some ({ s1 with start := 0, held := [] }, false)
    else
      -- Must read more data.
      match s1.makeRoom with
      | none => some (s1.setErr ScanErr.tooLong, false)
      | some s2 => Scanner.scanLoop fuel s2.fill

/-- The method `Scanner.Scan`. -/
def Scanner.Scan (s : Scanner) : Option (Scanner × Bool) :=
  Scanner.scanLoop (s.r.rest.length + 2) s

/-- The method `Scanner.Err`: `io.EOF` is not reported. -/
def Scanner.Err (s : Scanner) : Option ScanErr :=
  if s.err = some ScanErr.eof then none else s.err

/-- The method `Scanner.Text`. -/
def Scanner.Text (s : Scanner) : List Char := s.token.getD []

/-- The built-in `append(lines, x)` on a slice that may be `nil` (`none`). -/
def appendLine (lines : Option (List (List Char))) (x : List Char) :
    Option (List (List Char)) :=
  some (lines.getD [] ++ [x])

/-- The loop `for scanner.Scan()` of lines 113-115: the scanner and the slice at the
end; `none` when the fuel runs out first. -/
def readLoop : Nat → Scanner → Option (List (List Char)) →
    Option (Scanner × Option (List (List Char)))
  | 0, _, _ => none
  | fuel + 1, s, lines =>
    match s.Scan with
    | none => none
    | some (s1, false) => some (s1, lines)
    | some (s1, true) => readLoop fuel s1 (appendLine lines s1.Text)

/-- The function `readLines`, given what `os.Open` answers (`none`: it fails): the slice
returned (`none` is `nil`) and the error returned (`none` is `nil`). -/
def readLines (opened : Option Reader) :
    Option (Option (List (List Char)) × Option ScanErr) :=
  match opened with
  | none => some (none, some ScanErr.io)
  | some r =>
    match readLoop (r.rest.length + 2) (NewScanner r) none with
    | none => none
    | some (s, lines) =>
      match s.Err with
      | some e => some (none, some e)
      | none => some (lines, none)

/-- A file made of the given lines, each followed by a newline. -/
def fileOfLines (lines : List (List Char)) : List Char :=
  (lines.map (fun l => l ++ ['\n'])).flatten

/-! ## The pool: goroutines and channels (`main.go` lines 37-100)

The goroutines of `main` are run as an interleaving: a schedule is a list of
actions, each one atomic step of one goroutine (a channel operation, a
`WaitGroup` operation, or an answer of the environment), and `step` says
whether the action can happen in a state and what the state is afterwards.
A goroutine that would block has no action until the other side is ready.
Once `main` has returned the process is over and nothing can happen. -/

/-- Where one worker goroutine stands in its loop. -/
inductive WState where
  | idle                              -- at `for url := range urlCh`
  | fetching (url : List Char)        -- lines 47-60, holding the URL it received
  | sending (links : List (List Char)) -- blocked in `linkCh <- foundLinks`
  | done                              -- the loop is over and `wg.Done()` has run
deriving DecidableEq, Repr

/-- Where the main goroutine stands. -/
inductive MainPc where
  | spawning    -- the loop of line 42
  | sender      -- about to start the goroutine of line 67
  | closer      -- about to start the goroutine of line 75
  | create      -- about to call `os.Create`, line 81
  | collecting  -- at `for links := range linkCh`, line 89
  | exited      -- `main` has returned
deriving DecidableEq, Repr

/-- The state of the program while the pool runs.  The fields `enq`, `deq`,
`produced` and `pushed` are logs: the values sent on `urlCh`, the values
received from it with the index of the receiving worker, the Results found
with the index of the worker, and the Results that passed through `linkCh`. -/
structure Pool where
  pc : MainPc
  workers : List WState
  wg : Nat
  senderStarted : Bool
  sent : Nat
  urlClosed : Bool
  queue : List (List Char)
  closerStarted : Bool
  linkClosed : Bool
  panicked : Bool
  enq : List (List Char)
  deq : List (Nat × List Char)
  produced : List (Nat × List (List Char))
  pushed : List (Nat × List (List Char))
  out : List Msg
deriving DecidableEq, Repr

/-- One atomic step of one goroutine. -/
inductive Action where
  | spawn                                   -- main: `wg.Add(1)` and `go` of one worker
  | endSpawn                                -- main: the loop of line 42 ends
  | startSender                             -- main: `go` of line 67
  | startCloser                             -- main: `go` of line 75
  | create (ok : Bool)                      -- main: `os.Create` succeeds or fails
  | enqueue                                 -- sender: `urlCh <- url`
  | closeUrls                               -- sender: `close(urlCh)`
  | dequeue (w : Nat)                       -- worker `w`: receives a URL from `urlCh`
  | fetchFail (w : Nat) (reading : Bool)    -- worker `w`: `http.Get` or `ReadAll` fails
  | fetchOk (w : Nat) (body : List Char)    -- worker `w`: body read, links extracted
  | handOver (w : Nat) (written : Bool)     -- `linkCh`: main receives from worker `w`, then writes
  | sendOnClosed (w : Nat)                  -- worker `w`: send on the closed `linkCh` (a panic)
  | finish (w : Nat)                        -- worker `w`: `urlCh` closed and empty, `wg.Done()`
  | closeLinks                              -- closer: `wg.Wait()` returns, `close(linkCh)`
  | succeed                                 -- main: `linkCh` closed, line 100
deriving DecidableEq, Repr

/-- The state when `main` reaches line 37, with the URL list loaded. -/
def Pool.init : Pool :=
  { pc := .spawning, workers := [], wg := 0, senderStarted := false, sent := 0,
    urlClosed := false, queue := [], closerStarted := false, linkClosed := false,
    panicked := false, enq := [], deq := [], produced := [], pushed := [], out := [] }

/-- The step an action makes in a state, for the URL list `urls` and the thread
count `T`; `none` when the action cannot happen there. -/
def step (urls : List (List Char)) (T : Nat) (s : Pool) : Action → Option Pool
  | .spawn =>
    if s.pc = .spawning ∧ s.workers.length < T then
      some { s with workers := s.workers ++ [.idle], wg := s.wg + 1 }
    else none
  | .endSpawn =>
    if s.pc = .spawning ∧ ¬ s.workers.length < T then some { s with pc := .sender } else none
  | .startSender =>
    if s.pc = .sender then some { s with pc := .closer, senderStarted := true } else none
  | .startCloser =>
    if s.pc = .closer then some { s with pc := .create, closerStarted := true } else none
  | .create ok =>
    if s.pc = .create then
      if ok then some { s with pc := .collecting }
      else some { s with pc := .exited, out := s.out ++ [Msg.createError] }
    else none
  | .enqueue =>
    if s.pc ≠ .exited ∧ s.senderStarted = true ∧ s.urlClosed = false ∧
        s.queue.length < urls.length then
      match urls[s.sent]? with
      | some u => some { s with sent := s.sent + 1, queue := s.queue ++ [u], enq := s.enq ++ [u] }
      | none => none
    else none
  | .closeUrls =>
    if s.pc ≠ .exited ∧ s.senderStarted = true ∧ s.urlClosed = false ∧
        s.sent = urls.length then
      some { s with urlClosed := true }
    else none
  | .dequeue w =>
    if s.pc ≠ .exited then
      match s.workers[w]?, s.queue with
      | some .idle, u :: q =>
        some { s with workers := s.workers.set w (.fetching u), queue := q,
                      deq := s.deq ++ [(w, u)] }
      | _, _ => none
    else none
  | .fetchFail w reading =>
    if s.pc ≠ .exited then
      match s.workers[w]? with
      | some (.fetching u) =>
        some { s with workers := s.workers.set w .idle,
                      out := s.out ++ [if reading then Msg.bodyError u else Msg.fetchError u] }
      | _ => none
    else none
  | .fetchOk w body =>
    if s.pc ≠ .exited then
      match s.workers[w]? with
      | some (.fetching _) =>
        some { s with workers := s.workers.set w (.sending (FindAllString body)),
                      produced := s.produced ++ [(w, FindAllString body)] }
      | _ => none
    else none
  | .handOver w written =>
    if s.pc = .collecting ∧ s.linkClosed = false then
      match s.workers[w]? with
      | some (.sending links) =>
        some { s with workers := s.workers.set w .idle, pushed := s.pushed ++ [(w, links)],
                      pc := if written then .collecting else .exited,
                      out := if written then s.out else s.out ++ [Msg.writeError] }
      | _ => none
    else none
  | .sendOnClosed w =>
    if s.pc ≠ .exited ∧ s.linkClosed = true then
      match s.workers[w]? with
      | some (.sending _) => some { s with pc := .exited, panicked := true }
      | _ => none
    else none
  | .finish w =>
    if s.pc ≠ .exited ∧ s.queue = [] ∧ s.urlClosed = true then
      match s.workers[w]? with
      | some .idle => some { s with workers := s.workers.set w .done, wg := s.wg - 1 }
      | _ => none
    else none
  | .closeLinks =>
    if s.pc ≠ .exited ∧ s.closerStarted = true ∧ s.linkClosed = false ∧ s.wg = 0 then
      some { s with linkClosed := true }
    else none
  | .succeed =>
    if s.pc = .collecting ∧ s.linkClosed = true then
      some { s with pc := .exited, out := s.out ++ [Msg.success] }
    else none

/-- The state after a schedule; `none` when one of its actions cannot happen. -/
def runFrom (urls : List (List Char)) (T : Nat) : Pool → List Action → Option Pool
  | s, [] => some s
  | s, a :: rest =>
    match step urls T s a with
    | none => none
    | some s1 => runFrom urls T s1 rest

/-- The state after a schedule started at line 37. -/
def run (urls : List (List Char)) (T : Nat) (sched : List Action) : Option Pool :=
  runFrom urls T Pool.init sched

/-- Whether a worker goroutine has not yet run `wg.Done()`. -/
def WState.live : WState → Bool
  | .done => false
  | _ => true

/-- The Result a worker holds for `linkCh`, if it is blocked sending one. -/
def pending : Option WState → List (List (List Char))
  | some (.sending links) => [links]
  | _ => []

/-- The Results of worker `w` in a log, in order. -/
def resultsOf (w : Nat) (log : List (Nat × List (List Char))) : List (List (List Char)) :=
  (log.filter (fun e => e.1 == w)).map Prod.snd

/-- What holds in every state the pool can reach. -/
structure Inv (urls : List (List Char)) (T : Nat) (s : Pool) : Prop where
  sent_le : s.sent ≤ urls.length
  enq_eq : s.enq = urls.take s.sent
  deq_eq : s.deq.map Prod.snd ++ s.queue = s.enq
  closed_sent : s.urlClosed = true → s.sent = urls.length
  wg_eq : s.wg = s.workers.countP WState.live
  len_le : s.workers.length ≤ T
  len_eq : s.pc ≠ .spawning → s.workers.length = T
  closer_pc : s.closerStarted = true → s.pc ≠ .spawning
  done_closed : WState.done ∈ s.workers → s.urlClosed = true ∧ s.queue = []
  link_closed : s.linkClosed = true → s.closerStarted = true ∧ s.wg = 0
  no_panic : s.panicked = false
  results : ∀ w, resultsOf w s.produced = resultsOf w s.pushed ++ pending s.workers[w]?
  sender_started : s.pc = .closer ∨ s.pc = .create ∨ s.pc = .collecting → s.senderStarted = true
  closer_started : s.pc = .create ∨ s.pc = .collecting → s.closerStarted = true
  exit_reason : s.pc = .exited →
    s.linkClosed = true ∨ Msg.createError ∈ s.out ∨ Msg.writeError ∈ s.out
  success_closed : Msg.success ∈ s.out → s.linkClosed = true

/-- How many steps a worker goroutine in this state can still make without a
new URL: receive or finish, finish a fetch, hand over. -/
def WState.weight : WState → Nat
  | .idle => 1
  | .fetching _ => 3
  | .sending _ => 2
  | .done => 0

/-- How many steps the main goroutine can still make on its own. -/
def MainPc.rank : MainPc → Nat
  | .spawning => 5
  | .sender => 4
  | .closer => 3
  | .create => 2
  | .collecting => 1
  | .exited => 0

/-- A bound on the number of steps the program can still make. -/
def Pool.potential (urls : List (List Char)) (T : Nat) (s : Pool) : Nat :=
  s.pc.rank + 2 * (T - s.workers.length) + 4 * (urls.length - s.sent) +
    3 * s.queue.length + (s.workers.map WState.weight).sum +
    (if s.urlClosed then 0 else 1) + (if s.linkClosed then 0 else 1)

/-- A sample run: two URLs, two workers; the first URL fails to fetch, the body
of the second holds one link. -/
def sampleUrls : List (List Char) := ["u1".toList, "u2".toList]

/-- The schedule of the sample run. -/
def sampleSchedule : List Action :=
  [.spawn, .spawn, .endSpawn, .startSender, .enqueue, .dequeue 1, .startCloser, .enqueue,
   .closeUrls, .create true, .dequeue 0, .fetchOk 0 "x https://a.b y".toList,
   .fetchFail 1 false, .finish 1, .handOver 0 true, .finish 0, .closeLinks, .succeed]

/-- The state at the end of the sample run. -/
def sampleFinal : Pool :=
  { pc := .exited, workers := [.done, .done], wg := 0, senderStarted := true, sent := 2,
    urlClosed := true, queue := [], closerStarted := true, linkClosed := true,
    panicked := false, enq := ["u1".toList, "u2".toList],
    deq := [(1, "u1".toList), (0, "u2".toList)],
    produced := [(0, ["https://a.b".toList])],
    pushed := [(0, ["https://a.b".toList])],
    out := [Msg.fetchError "u1".toList, Msg.success] }

/-- A run that `os.Create` ends: one worker is started, the sender and the closer
are started, and the output file cannot be created (lines 81-85). -/
def createFailSchedule : List Action :=
  [.spawn, .endSpawn, .startSender, .startCloser, .create false]

/-- The state at the end of the run that `os.Create` ends: nothing was sent on
`urlCh`. -/
def createFailFinal : Pool :=
  { pc := .exited, workers := [.idle], wg := 1, senderStarted := true, sent := 0,
    urlClosed := false, queue := [], closerStarted := true, linkClosed := false,
    panicked := false, enq := [], deq := [], produced := [], pushed := [],
    out := [Msg.createError] }

/-- A run that a write error ends: both URLs are sent, the one worker fetches
the first, and the write of its Result fails (lines 91-95). -/
def writeFailSchedule : List Action :=
  [.spawn, .endSpawn, .startSender, .enqueue, .enqueue, .closeUrls, .startCloser,
   .create true, .dequeue 0, .fetchOk 0 "x https://a.b y".toList, .handOver 0 false]

/-- The state at the end of the run that a write error ends: the second URL is
still in `urlCh`. -/
def writeFailFinal : Pool :=
  { pc := .exited, workers := [.idle], wg := 1, senderStarted := true, sent := 2,
    urlClosed := true, queue := ["u2".toList], closerStarted := true, linkClosed := false,
    panicked := false, enq := ["u1".toList, "u2".toList], deq := [(0, "u1".toList)],
    produced := [(0, ["https://a.b".toList])], pushed := [(0, ["https://a.b".toList])],
    out := [Msg.writeError] }

/-! # Theorems

## Link extraction -/

/-! ### Facts about the anchored match -/

theorem scheme_length : scheme.length = 8 := rfl

theorem matchHere_some {s : List Char} {len : Nat} (h : matchHere s = some len) :
    ∃ run post, s = scheme ++ run ++ post ∧ run ≠ [] ∧
      (∀ c ∈ run, isLinkChar c = true) ∧ len = scheme.length + run.length ∧
      (∀ c, post.head? = some c → isLinkChar c = false) := by
  unfold matchHere at h
  split at h
  · rename_i hp
    obtain ⟨t, rfl⟩ := List.isPrefixOf_iff_prefix.mp hp
    simp only [List.drop_left] at h
    split at h
    · cases h
    · rename_i hne
      refine ⟨t.takeWhile isLinkChar, t.dropWhile isLinkChar, ?_, ?_, ?_, ?_, ?_⟩
      · rw [List.append_assoc, List.takeWhile_append_dropWhile]
      · intro h0; apply hne; simp [h0]
      · intro c hc; exact List.mem_takeWhile_imp hc
      · injection h with h; exact h.symm
      · intro c hc
        cases hd : t.dropWhile isLinkChar with
        | nil => rw [hd] at hc; cases hc
        | cons x xs =>
          rw [hd] at hc
          simp only [List.head?_cons, Option.some.injEq] at hc
          subst hc
          have := List.head_dropWhile_not isLinkChar t (by rw [hd]; simp)
          simp only [hd, List.head_cons] at this
          simpa using this
  · cases h

theorem takeWhile_run_append (p : Char → Bool) :
    ∀ (run post : List Char), (∀ c ∈ run, p c = true) →
      (∀ c, post.head? = some c → p c = false) →
      (run ++ post).takeWhile p = run
  | [], [], _, _ => rfl
  | [], x :: xs, _, hpost => by simp [List.takeWhile_cons, hpost x rfl]
  | r :: rs, post, hrun, hpost => by
    have ih := takeWhile_run_append p rs post
      (fun c hc => hrun c (List.mem_cons_of_mem _ hc)) hpost
    simp [List.takeWhile_cons, hrun r (List.mem_cons_self _ _), ih]

theorem matchHere_of_shape {run post : List Char} (hne : run ≠ [])
    (hrun : ∀ c ∈ run, isLinkChar c = true)
    (hpost : ∀ c, post.head? = some c → isLinkChar c = false) :
    matchHere (scheme ++ run ++ post) = some (scheme.length + run.length) := by
  have htw := takeWhile_run_append isLinkChar run post hrun hpost
  unfold matchHere
  have hp : scheme.isPrefixOf (scheme ++ run ++ post) = true := by
    rw [List.isPrefixOf_iff_prefix, List.append_assoc]; exact List.prefix_append _ _
  rw [if_pos hp, List.append_assoc, List.drop_left, htw]
  have : run.length ≠ 0 := by
    intro h0; exact hne (List.length_eq_zero.mp h0)
  simp [this]

theorem matchHere_nil : matchHere [] = none := rfl

theorem matchHere_bounds {s : List Char} {len : Nat} (h : matchHere s = some len) :
    9 ≤ len ∧ len ≤ s.length := by
  obtain ⟨run, post, rfl, hne, -, rfl, -⟩ := matchHere_some h
  have : 0 < run.length := List.length_pos.mpr hne
  simp only [List.length_append, scheme_length]
  omega

/-! ### Facts about the leftmost search -/

theorem doExecute_some : ∀ (s : List Char) (pos b e : Nat),
    doExecute s pos = some (b, e) →
    ∃ k len, b = pos + k ∧ e = pos + k + len ∧ k < s.length ∧
      matchHere (s.drop k) = some len ∧ ∀ j, j < k → matchHere (s.drop j) = none
  | [], _, _, _, h => by simp [doExecute] at h
  | c :: cs, pos, b, e, h => by
    unfold doExecute at h
    cases hm : matchHere (c :: cs) with
    | some len =>
      rw [hm] at h
      simp only [Option.some.injEq, Prod.mk.injEq] at h
      refine ⟨0, len, by omega, by omega, by simp, by simpa using hm, ?_⟩
      intro j hj; omega
    | none =>
      rw [hm] at h
      obtain ⟨k, len, hb, he, hk, hmk, hlt⟩ := doExecute_some cs (pos + 1) b e h
      refine ⟨k + 1, len, by omega, by omega, by simp; omega, by simpa using hmk, ?_⟩
      intro j hj
      cases j with
      | zero => simpa using hm
      | succ j => simpa using hlt j (by omega)

theorem doExecute_none : ∀ (s : List Char) (pos : Nat),
    doExecute s pos = none → ∀ j, matchHere (s.drop j) = none
  | [], _, _, j => by simp [matchHere_nil]
  | c :: cs, pos, h, j => by
    unfold doExecute at h
    cases hm : matchHere (c :: cs) with
    | some len => rw [hm] at h; cases h
    | none =>
      rw [hm] at h
      cases j with
      | zero => simpa using hm
      | succ j => simpa using doExecute_none cs (pos + 1) h j

/-! ### Facts about the match loop -/

theorem allMatches_sound (body : List Char) : ∀ (n pos : Nat) (m : Nat × Nat),
    m ∈ allMatches body n pos →
    pos ≤ m.1 ∧ m.1 < m.2 ∧ m.2 ≤ body.length ∧
      matchHere (body.drop m.1) = some (m.2 - m.1)
  | 0, _, _, h => by simp [allMatches] at h
  | n + 1, pos, m, h => by
    unfold allMatches at h
    cases hd : doExecute (body.drop pos) pos with
    | none => rw [hd] at h; simp at h
    | some be =>
      obtain ⟨b, e⟩ := be
      rw [hd] at h
      obtain ⟨k, len, hb, he, hk, hmk, -⟩ := doExecute_some _ _ _ _ hd
      have hbd := matchHere_bounds hmk
      simp only [List.drop_drop, List.length_drop] at hmk hbd hk
      rcases List.mem_cons.mp h with h | h
      · subst h
        simp only
        subst hb he
        refine ⟨by omega, by omega, by omega, ?_⟩
        have : pos + k + len - (pos + k) = len := by omega
        rw [this, ← hmk]
      · have ih := allMatches_sound body n e m h
        exact ⟨by omega, ih.2⟩

theorem allMatches_pairwise (body : List Char) : ∀ (n pos : Nat),
    (allMatches body n pos).Pairwise (fun p q => p.2 ≤ q.1)
  | 0, _ => by simp [allMatches]
  | n + 1, pos => by
    unfold allMatches
    cases hd : doExecute (body.drop pos) pos with
    | none => simp
    | some be =>
      obtain ⟨b, e⟩ := be
      simp only [List.pairwise_cons]
      exact ⟨fun q hq => (allMatches_sound body n e q hq).1, allMatches_pairwise body n e⟩

theorem allMatches_complete (body : List Char) : ∀ (n pos i : Nat),
    body.length < pos + n → pos ≤ i → matchHere (body.drop i) ≠ none →
    ∃ m ∈ allMatches body n pos, m.1 ≤ i ∧ i < m.2
  | 0, pos, i, hn, hi, hm => by
    exfalso; apply hm
    rw [List.drop_eq_nil_of_le (by omega)]; rfl
  | n + 1, pos, i, hn, hi, hm => by
    unfold allMatches
    cases hd : doExecute (body.drop pos) pos with
    | none =>
      exfalso; apply hm
      have := doExecute_none _ _ hd (i - pos)
      rw [List.drop_drop] at this
      rw [← this]; congr 2; omega
    | some be =>
      obtain ⟨b, e⟩ := be
      obtain ⟨k, len, hb, he, hk, hmk, hlt⟩ := doExecute_some _ _ _ _ hd
      have hbd := matchHere_bounds hmk
      simp only
      by_cases hie : i < e
      · refine ⟨(b, e), List.mem_cons_self _ _, ?_, hie⟩
        simp only
        by_contra hlt2
        apply hm
        have := hlt (i - pos) (by omega)
        rw [List.drop_drop] at this
        rw [← this]; congr 2; omega
      · obtain ⟨m, hmem, h1, h2⟩ := allMatches_complete body n e i (by omega) (by omega) hm
        exact ⟨m, List.mem_cons_of_mem _ hmem, h1, h2⟩

theorem slice_of_shape (body : List Char) (b : Nat) (run post : List Char)
    (h : body.drop b = scheme ++ run ++ post) :
    slice body b (b + (scheme.length + run.length)) = scheme ++ run := by
  unfold slice
  have : b + (scheme.length + run.length) - b = (scheme ++ run).length := by
    simp only [List.length_append]; omega
  rw [h, this, List.take_left]

theorem mem_FindAllString (body m : List Char) (h : m ∈ FindAllString body) :
    ∃ pre run post, body = pre ++ m ++ post ∧ m = scheme ++ run ∧ run ≠ [] ∧
      (∀ c ∈ run, isLinkChar c = true) ∧
      (∀ c, post.head? = some c → isLinkChar c = false) ∧
      (pre.length, pre.length + m.length) ∈ FindAllStringIndex body := by
  unfold FindAllString at h
  obtain ⟨⟨b, e⟩, hmem, rfl⟩ := List.mem_map.mp h
  obtain ⟨-, hlt, hle, hm⟩ := allMatches_sound body _ _ _ hmem
  simp only at hlt hle hm ⊢
  obtain ⟨run, post, hshape, hne, hrun, hlen, hpost⟩ := matchHere_some hm
  have he : e = b + (scheme.length + run.length) := by omega
  have hsl : slice body b e = scheme ++ run := by
    rw [he]; exact slice_of_shape body b run post hshape
  have hb : (body.take b).length = b := by
    rw [List.length_take]; omega
  refine ⟨body.take b, run, post, ?_, hsl, hne, hrun, hpost, ?_⟩
  · rw [hsl, List.append_assoc, ← hshape, List.take_append_drop]
  · rw [hb, hsl]
    have : b + (scheme ++ run).length = e := by
      simp only [List.length_append]; omega
    rw [this]; exact hmem

/-! ## Link extraction: the claims -/

/-- C1: every string returned by link extraction is a contiguous piece of the
body (`body = pre ++ m ++ post`, at a position the search reported), made of
`https://` followed by a non-empty run of characters of the class, and the
character that follows it in the body, if any, is outside the class. -/
theorem FindAllString_shape (body m : List Char) (h : m ∈ FindAllString body) :
    ∃ pre run post, body = pre ++ m ++ post ∧ m = scheme ++ run ∧ run ≠ [] ∧
      (∀ c ∈ run, isLinkChar c = true) ∧
      (∀ c, post.head? = some c → isLinkChar c = false) ∧
      (pre.length, pre.length + m.length) ∈ FindAllStringIndex body :=
  mem_FindAllString body m h

theorem FindAllString_shape_witness :
    ("https://a.b".toList ∈ FindAllString "see https://a.b, ok".toList) ∧
    ∃ pre run post, "see https://a.b, ok".toList = pre ++ "https://a.b".toList ++ post ∧
      "https://a.b".toList = scheme ++ run ∧ run ≠ [] ∧
      (∀ c ∈ run, isLinkChar c = true) ∧
      (∀ c, post.head? = some c → isLinkChar c = false) ∧
      (pre.length, pre.length + "https://a.b".toList.length) ∈
        FindAllStringIndex "see https://a.b, ok".toList :=
  ⟨by decide, FindAllString_shape _ _ (by decide)⟩

/-- C2: the matches lie in the body at non-overlapping, strictly increasing
positions (each one starts at or after the end of every earlier one, and none
is empty), and the returned strings are the slices at those positions, listed
in that order. -/
theorem FindAllString_ordered (body : List Char) :
    (FindAllStringIndex body).Pairwise (fun p q => p.2 ≤ q.1) ∧
    (FindAllStringIndex body).Pairwise (fun p q => p.1 < q.1) ∧
    (∀ p ∈ FindAllStringIndex body, p.1 < p.2 ∧ p.2 ≤ body.length) ∧
    FindAllString body = (FindAllStringIndex body).map (fun p => slice body p.1 p.2) ∧
    ∀ k (hk : k < (FindAllString body).length),
      ∃ p ∈ FindAllStringIndex body, (FindAllStringIndex body)[k]? = some p ∧
        body = body.take p.1 ++ (FindAllString body)[k] ++ body.drop p.2 := by
  have hs : ∀ p ∈ FindAllStringIndex body, p.1 < p.2 ∧ p.2 ≤ body.length := by
    intro p hp
    have := allMatches_sound body _ _ _ hp
    exact ⟨this.2.1, this.2.2.1⟩
  have hpw := allMatches_pairwise body (body.length + 1) 0
  refine ⟨hpw, ?_, hs, rfl, ?_⟩
  · unfold FindAllStringIndex at hs ⊢
    refine (List.Pairwise.and_mem.mp hpw).imp ?_
    intro a b hab
    have := (hs a hab.1).1
    omega
  · intro k hk
    unfold FindAllString at hk ⊢
    rw [List.length_map] at hk
    refine ⟨(FindAllStringIndex body)[k], List.getElem_mem hk, List.getElem?_eq_getElem hk, ?_⟩
    rw [List.getElem_map]
    have hp := hs _ (List.getElem_mem hk)
    generalize (FindAllStringIndex body)[k] = p at hp
    obtain ⟨b, e⟩ := p
    simp only at hp ⊢
    unfold slice
    have h1 : body.drop e = (body.drop b).drop (e - b) := by
      rw [List.drop_drop]; congr 1; omega
    rw [h1, List.append_assoc, List.take_append_drop, List.take_append_drop]

/-- C10: every position at which the body reads `https://` followed by at least
one character of the class is the start of a returned match or lies strictly
inside a returned match that started earlier; a body without such a position
gives no match, and `https://https://a` gives the single match
`https://https`. -/
theorem FindAllString_covers (body : List Char) :
    (∀ i c, scheme.isPrefixOf (body.drop i) = true →
        (body.drop (i + scheme.length)).head? = some c → isLinkChar c = true →
        ∃ p ∈ FindAllStringIndex body, p.1 = i ∨ (p.1 < i ∧ i < p.2)) ∧
    ((∀ i c, scheme.isPrefixOf (body.drop i) = true →
        (body.drop (i + scheme.length)).head? = some c → isLinkChar c = false) →
      FindAllString body = []) ∧
    FindAllString ("https://https://a".toList) = ["https://https".toList] := by
  have key : ∀ i c, scheme.isPrefixOf (body.drop i) = true →
      (body.drop (i + scheme.length)).head? = some c → isLinkChar c = true →
      matchHere (body.drop i) ≠ none := by
    intro i c hp hc hl
    unfold matchHere
    rw [if_pos hp, List.drop_drop]
    cases hd : body.drop (i + scheme.length) with
    | nil => rw [hd] at hc; cases hc
    | cons x xs =>
      rw [hd] at hc
      simp only [List.head?_cons, Option.some.injEq] at hc
      subst hc
      simp [List.takeWhile_cons, hl]
  refine ⟨?_, ?_, by decide⟩
  · intro i c hp hc hl
    obtain ⟨p, hmem, h1, h2⟩ :=
      allMatches_complete body (body.length + 1) 0 i (by omega) (by omega) (key i c hp hc hl)
    refine ⟨p, hmem, ?_⟩
    omega
  · intro hno
    unfold FindAllString
    cases hidx : FindAllStringIndex body with
    | nil => rfl
    | cons p ps =>
      exfalso
      have hmem : p ∈ FindAllStringIndex body := by rw [hidx]; exact List.mem_cons_self _ _
      obtain ⟨-, -, -, hm⟩ := allMatches_sound body _ _ _ hmem
      obtain ⟨run, post, hshape, hne, hrun, -, -⟩ := matchHere_some hm
      cases run with
      | nil => exact hne rfl
      | cons r rs =>
        have hp : scheme.isPrefixOf (body.drop p.1) = true := by
          rw [List.isPrefixOf_iff_prefix, hshape, List.append_assoc]
          exact List.prefix_append _ _
        have hc : (body.drop (p.1 + scheme.length)).head? = some r := by
          rw [← List.drop_drop, hshape, List.append_assoc, List.drop_left]
          rfl
        have := hno p.1 r hp hc
        rw [hrun r (List.mem_cons_self _ _)] at this
        cases this

/-! ## The buffered writer when no write fails -/

theorem File.Write_ok (f : File) (p : List Char) (h : ∀ x ∈ f.faults, x = none) :
    f.Write p = ({ data := f.data ++ p, faults := f.faults.tail }, p.length, false) := by
  unfold File.Write
  cases hf : f.faults with
  | nil => rfl
  | cons x rest =>
    have : x = none := h x (by rw [hf]; exact List.mem_cons_self _ _)
    subst this; rfl

theorem Writer.Flush_good (b : Writer) (h : b.Good) :
    b.Flush.1.Good ∧ b.Flush.1.buf = [] ∧ b.Flush.1.wr.data = b.wr.data ++ b.buf := by
  obtain ⟨he, hf⟩ := h
  unfold Writer.Flush
  rw [he]
  by_cases h0 : b.buf.length = 0
  · have hb : b.buf = [] := List.length_eq_zero.mp h0
    simp only [Bool.false_eq_true, if_false, h0, if_true]
    exact ⟨⟨he, hf⟩, hb, by rw [hb, List.append_nil]⟩
  · simp only [Bool.false_eq_true, if_false, h0, File.Write_ok _ _ hf, Bool.false_or,
      lt_self_iff_false, decide_False]
    refine ⟨⟨rfl, ?_⟩, trivial, trivial⟩
    intro x hx
    exact hf x (List.mem_of_mem_tail hx)

theorem Writer.writeStringLoop_exit (fuel : Nat) (b : Writer) (s : List Char) (nn : Nat)
    (h : s.length ≤ b.Available) :
    Writer.writeStringLoop (fuel + 1) b s nn = some (b, s, nn) := by
  unfold Writer.writeStringLoop
  have : ¬ (s.length > b.Available) := by omega
  simp [this]

theorem Writer.writeStringLoop_good_empty (fuel : Nat) (b : Writer) (s : List Char) (nn : Nat)
    (h : b.Good) (hb : b.buf = []) :
    ∃ b1 s1 nn1, Writer.writeStringLoop (fuel + 2) b s nn = some (b1, s1, nn1) ∧ b1.Good ∧
      s1.length ≤ b1.Available ∧ b1.wr.data ++ b1.buf ++ s1 = b.wr.data ++ b.buf ++ s := by
  by_cases hs : s.length ≤ b.Available
  · exact ⟨b, s, nn, Writer.writeStringLoop_exit _ b s nn hs, h, hs, rfl⟩
  · obtain ⟨he, hf⟩ := h
    unfold Writer.writeStringLoop
    have hgt : s.length > b.Available := by omega
    simp only [hgt, decide_True, he, Bool.not_false, Bool.and_self, if_true]
    unfold Writer.writeStringStep
    simp only [hb, List.length_nil, if_true, File.Write_ok _ _ hf, List.drop_length]
    rw [Writer.writeStringLoop_exit _ _ _ _ (by simp)]
    refine ⟨_, _, _, rfl, ⟨rfl, ?_⟩, by simp, by simp [hb]⟩
    intro x hx
    exact hf x (List.mem_of_mem_tail hx)

theorem Writer.writeStringLoop_good (fuel : Nat) (b : Writer) (s : List Char) (nn : Nat)
    (h : b.Good) :
    ∃ b1 s1 nn1, Writer.writeStringLoop (fuel + 3) b s nn = some (b1, s1, nn1) ∧ b1.Good ∧
      s1.length ≤ b1.Available ∧ b1.wr.data ++ b1.buf ++ s1 = b.wr.data ++ b.buf ++ s := by
  by_cases hb : b.buf = []
  · exact Writer.writeStringLoop_good_empty (fuel + 1) b s nn h hb
  by_cases hs : s.length ≤ b.Available
  · exact ⟨b, s, nn, Writer.writeStringLoop_exit _ b s nn hs, h, hs, rfl⟩
  · have hgt : s.length > b.Available := by omega
    have h0 : b.buf.length ≠ 0 := fun h0 => hb (List.length_eq_zero.mp h0)
    have hgood : ({ b with buf := b.buf ++ s.take (min b.Available s.length) } : Writer).Good :=
      ⟨h.1, h.2⟩
    obtain ⟨hg1, hb1, hd1⟩ := Writer.Flush_good _ hgood
    unfold Writer.writeStringLoop
    simp only [hgt, decide_True, h.1, Bool.not_false, Bool.and_self, if_true]
    unfold Writer.writeStringStep
    simp only [h0, if_false]
    obtain ⟨b2, s2, nn2, hl, hg2, hs2, hd2⟩ :=
      Writer.writeStringLoop_good_empty fuel _ (s.drop (min b.Available s.length))
        (nn + min b.Available s.length) hg1 hb1
    refine ⟨b2, s2, nn2, hl, hg2, hs2, ?_⟩
    rw [hd2, hd1, hb1]
    simp only [List.append_nil, List.append_assoc, List.take_append_drop]

theorem Writer.WriteString_good (b : Writer) (s : List Char) (h : b.Good) :
    ∃ b1 nn, b.WriteString s = some (b1, nn, false) ∧ b1.Good ∧
      b1.wr.data ++ b1.buf = b.wr.data ++ b.buf ++ s := by
  obtain ⟨b1, s1, nn1, hl, hg, hs, hd⟩ := Writer.writeStringLoop_good s.length b s 0 h
  unfold Writer.WriteString
  rw [hl]
  simp only [hg.1, Bool.false_eq_true, if_false]
  refine ⟨_, _, rfl, ⟨rfl, hg.2⟩, ?_⟩
  simp only
  rw [List.take_of_length_le hs, ← List.append_assoc, hd]

/-! ## The collector when no write fails -/

theorem writeLinks_good : ∀ (links : List (List Char)) (b : Writer), b.Good →
    ∃ b1, writeLinks b links = some (b1, false) ∧ b1.Good ∧
      b1.wr.data ++ b1.buf =
        b.wr.data ++ b.buf ++ (links.map (fun link => link ++ ['\n'])).flatten
  | [], b, h => ⟨b, rfl, h, by simp⟩
  | link :: rest, b, h => by
    obtain ⟨b1, nn, hw, hg1, hd1⟩ := Writer.WriteString_good b (link ++ ['\n']) h
    obtain ⟨b2, hl, hg2, hd2⟩ := writeLinks_good rest b1 hg1
    refine ⟨b2, ?_, hg2, ?_⟩
    · unfold writeLinks
      rw [hw]
      exact hl
    · rw [hd2, hd1]
      simp only [List.map_cons, List.flatten_cons, List.append_assoc]

theorem collectLoop_good : ∀ (results : List (List (List Char))) (b : Writer), b.Good →
    b.buf = [] →
    ∃ b1, collectLoop b results = some (b1, [Msg.success]) ∧
      b1.wr.data = b.wr.data ++ linesText results
  | [], b, _, _ => ⟨b, rfl, by simp [linesText]⟩
  | links :: rest, b, h, hb => by
    obtain ⟨b1, hl, hg1, hd1⟩ := writeLinks_good links b h
    obtain ⟨hg2, hb2, hd2⟩ := Writer.Flush_good b1 hg1
    obtain ⟨b3, hc, hd3⟩ := collectLoop_good rest b1.Flush.1 hg2 hb2
    refine ⟨b3, ?_, ?_⟩
    · unfold collectLoop
      rw [hl]
      exact hc
    · rw [hd3, hd2, hd1, hb]
      simp only [linesText, List.flatten_cons, List.map_append, List.flatten_append,
        List.append_nil, List.append_assoc]

/-! ## The collector always returns -/

theorem File.Write_count (f : File) (p : List Char) (h : (f.Write p).2.2 = false) :
    (f.Write p).2.1 = p.length := by
  unfold File.Write at h ⊢
  cases hf : f.faults with
  | nil => rfl
  | cons x rest =>
    cases x with
    | none => rfl
    | some k => rw [hf] at h; cases h

theorem Writer.Flush_err_or_empty (b : Writer) : b.Flush.1.err = true ∨ b.Flush.1.buf = [] := by
  unfold Writer.Flush
  by_cases he : b.err = true
  · rw [if_pos he]; exact Or.inl he
  · rw [if_neg he]
    by_cases h0 : b.buf.length = 0
    · rw [if_pos h0]; exact Or.inr (List.length_eq_zero.mp h0)
    · rw [if_neg h0]
      simp only
      split
      · exact Or.inl rfl
      · exact Or.inr rfl

theorem Writer.writeStringLoop_err (fuel : Nat) (b : Writer) (s : List Char) (nn : Nat)
    (h : b.err = true) : Writer.writeStringLoop (fuel + 1) b s nn = some (b, s, nn) := by
  unfold Writer.writeStringLoop
  simp [h]

theorem Writer.writeStringLoop_total_empty (fuel : Nat) (b : Writer) (s : List Char) (nn : Nat)
    (hb : b.buf = []) : ∃ r, Writer.writeStringLoop (fuel + 2) b s nn = some r := by
  unfold Writer.writeStringLoop
  split
  · unfold Writer.writeStringStep
    simp only [hb, List.length_nil, if_true]
    cases he : (b.wr.Write s).2.2 with
    | true => exact ⟨_, Writer.writeStringLoop_err _ _ _ _ rfl⟩
    | false =>
      have hn := File.Write_count b.wr s he
      refine ⟨_, Writer.writeStringLoop_exit _ _ _ _ ?_⟩
      rw [hn, List.drop_length]
      simp
  · exact ⟨_, rfl⟩

theorem Writer.writeStringLoop_total (fuel : Nat) (b : Writer) (s : List Char) (nn : Nat) :
    ∃ r, Writer.writeStringLoop (fuel + 3) b s nn = some r := by
  by_cases hb : b.buf = []
  · exact Writer.writeStringLoop_total_empty (fuel + 1) b s nn hb
  unfold Writer.writeStringLoop
  split
  · unfold Writer.writeStringStep
    have h0 : b.buf.length ≠ 0 := fun h0 => hb (List.length_eq_zero.mp h0)
    simp only [h0, if_false]
    rcases Writer.Flush_err_or_empty
      ({ b with buf := b.buf ++ s.take (min b.Available s.length) } : Writer) with he | he
    · exact ⟨_, Writer.writeStringLoop_err _ _ _ _ he⟩
    · exact Writer.writeStringLoop_total_empty fuel _ _ _ he
  · exact ⟨_, rfl⟩

theorem Writer.WriteString_total (b : Writer) (s : List Char) :
    ∃ r, b.WriteString s = some r := by
  obtain ⟨⟨b1, s1, nn⟩, h⟩ := Writer.writeStringLoop_total s.length b s 0
  unfold Writer.WriteString
  rw [h]
  simp only
  split
  · exact ⟨_, rfl⟩
  · exact ⟨_, rfl⟩

theorem writeLinks_total : ∀ (links : List (List Char)) (b : Writer),
    ∃ r, writeLinks b links = some r
  | [], b => ⟨_, rfl⟩
  | link :: rest, b => by
    obtain ⟨⟨b1, nn, e⟩, h⟩ := Writer.WriteString_total b (link ++ ['\n'])
    unfold writeLinks
    rw [h]
    cases e with
    | true => exact ⟨_, rfl⟩
    | false => exact writeLinks_total rest b1

theorem collectLoop_total : ∀ (results : List (List (List Char))) (b : Writer),
    ∃ r, collectLoop b results = some r
  | [], b => ⟨_, rfl⟩
  | links :: rest, b => by
    obtain ⟨⟨b1, e⟩, h⟩ := writeLinks_total links b
    unfold collectLoop
    rw [h]
    cases e with
    | true => exact ⟨_, rfl⟩
    | false => exact collectLoop_total rest _

/-- The collector returns on every file and every sequence of Results. -/
theorem collector_total (file : File) (results : List (List (List Char))) :
    ∃ r, collector file results = some r := by
  obtain ⟨⟨b, out⟩, h⟩ := collectLoop_total results (NewWriter file)
  unfold collector
  rw [h]
  exact ⟨_, rfl⟩

/-! ## Lines of the output -/

theorem newline_not_mem_match (body m : List Char) (h : m ∈ FindAllString body) :
    '\n' ∉ m := by
  obtain ⟨-, run, -, -, rfl, -, hrun, -, -⟩ := mem_FindAllString body m h
  intro hmem
  rcases List.mem_append.mp hmem with h1 | h1
  · revert h1; decide
  · have := hrun _ h1
    revert this; decide

theorem line_cons_inj : ∀ (l m x y : List Char), '\n' ∉ l → '\n' ∉ m →
    l ++ '\n' :: x = m ++ '\n' :: y → l = m ∧ x = y
  | [], [], _, _, _, _, h => by simpa using h
  | [], c :: m, _, _, _, hm, h => by
    simp only [List.nil_append, List.cons_append, List.cons.injEq] at h
    exact absurd (h.1 ▸ List.mem_cons_self _ _) hm
  | c :: l, [], _, _, hl, _, h => by
    simp only [List.nil_append, List.cons_append, List.cons.injEq] at h
    exact absurd (h.1 ▸ List.mem_cons_self _ _) hl
  | c :: l, d :: m, x, y, hl, hm, h => by
    simp only [List.cons_append, List.cons.injEq] at h
    obtain ⟨h1, h2⟩ := line_cons_inj l m x y
      (fun hc => hl (List.mem_cons_of_mem _ hc)) (fun hc => hm (List.mem_cons_of_mem _ hc)) h.2
    exact ⟨by rw [h.1, h1], h2⟩

theorem lines_inj : ∀ (ls ms : List (List Char)), (∀ l ∈ ls, '\n' ∉ l) →
    (∀ m ∈ ms, '\n' ∉ m) →
    (ls.map (fun l => l ++ ['\n'])).flatten = (ms.map (fun l => l ++ ['\n'])).flatten →
    ls = ms
  | [], [], _, _, _ => rfl
  | [], m :: ms, _, _, h => by
    have := congrArg List.length h
    simp only [List.map_nil, List.flatten_nil, List.length_nil, List.map_cons,
      List.flatten_cons, List.length_append, List.length_singleton] at this
    omega
  | l :: ls, [], _, _, h => by
    have := congrArg List.length h
    simp only [List.map_nil, List.flatten_nil, List.length_nil, List.map_cons,
      List.flatten_cons, List.length_append, List.length_singleton] at this
    omega
  | l :: ls, m :: ms, hl, hm, h => by
    simp only [List.map_cons, List.flatten_cons, List.append_assoc, List.singleton_append] at h
    obtain ⟨h1, h2⟩ := line_cons_inj l m _ _ (hl l (List.mem_cons_self _ _))
      (hm m (List.mem_cons_self _ _)) h
    have := lines_inj ls ms (fun x hx => hl x (List.mem_cons_of_mem _ hx))
      (fun x hx => hm x (List.mem_cons_of_mem _ hx)) h2
    rw [h1, this]

/-! ## The collector: the claims -/

/-- C3: when no write to the file fails, the collector ends with the success
message and the file holds exactly each link followed by one newline, Results
in arrival order and links in match order; for Results that come from link
extraction, the only list of newline-free lines whose newline-terminated
concatenation is the file is the flattened list of matches. -/
theorem collector_output (faults : List (Option Nat)) (results : List (List (List Char)))
    (hf : ∀ x ∈ faults, x = none) :
    ∃ f, collector (createdFile faults) results = some (f, [Msg.success]) ∧
      f.data = linesText results ∧
      ∀ bodies : List (List Char), results = bodies.map FindAllString →
        ∀ ls : List (List Char), (∀ l ∈ ls, '\n' ∉ l) →
          ((ls.map (fun l => l ++ ['\n'])).flatten = f.data ↔ ls = results.flatten) := by
  obtain ⟨b1, hc, hd⟩ := collectLoop_good results (NewWriter (createdFile faults)) ⟨rfl, hf⟩ rfl
  refine ⟨b1.wr, ?_, ?_, ?_⟩
  · unfold collector
    rw [hc]
  · simpa [NewWriter, createdFile] using hd
  · intro bodies hb ls hls
    have hdata : b1.wr.data = linesText results := by
      simpa [NewWriter, createdFile] using hd
    rw [hdata]
    constructor
    · intro h
      apply lines_inj ls results.flatten hls _ h
      intro m hm
      obtain ⟨r, hr, hmr⟩ := List.mem_flatten.mp hm
      rw [hb] at hr
      obtain ⟨body, -, rfl⟩ := List.mem_map.mp hr
      exact newline_not_mem_match body m hmr
    · intro h
      rw [h]; rfl

theorem collector_output_witness :
    (∀ x ∈ [none, none], x = (none : Option Nat)) ∧
    ∃ f, collector (createdFile [none, none])
        [["https://a.b".toList, "https://c.d".toList], [], ["https://e".toList]] =
          some (f, [Msg.success]) ∧
      f.data = linesText [["https://a.b".toList, "https://c.d".toList], [], ["https://e".toList]] ∧
      ∀ bodies : List (List Char),
        [["https://a.b".toList, "https://c.d".toList], [], ["https://e".toList]] =
          bodies.map FindAllString →
        ∀ ls : List (List Char), (∀ l ∈ ls, '\n' ∉ l) →
          ((ls.map (fun l => l ++ ['\n'])).flatten = f.data ↔
            ls = [["https://a.b".toList, "https://c.d".toList], [],
              ["https://e".toList]].flatten) :=
  ⟨by decide, collector_output _ _ (by decide)⟩

/-- C6 (the code at the failing input): one Result with one link, and the only
write to the file, made by the `Flush` of line 97, fails having written
nothing.  The error is dropped, the loop ends, and the collector prints the
success message over an empty file. -/
theorem collector_flush_error_unreported :
    collector (createdFile [some 0]) [["https://a.b".toList]] =
      some ({ data := [], faults := [] }, [Msg.success]) := by
  decide

/-- C9: on the body `Visit https://x.io/path1 and https://x.io/path2!` link
extraction returns the two links, without the final `!`, and the collector
writes them as exactly two lines. -/
theorem scenario_two_links :
    FindAllString "Visit https://x.io/path1 and https://x.io/path2!".toList =
      ["https://x.io/path1".toList, "https://x.io/path2".toList] ∧
    collector (createdFile [])
        [FindAllString "Visit https://x.io/path1 and https://x.io/path2!".toList] =
      some ({ data := "https://x.io/path1\nhttps://x.io/path2\n".toList, faults := [] },
        [Msg.success]) := by
  constructor <;> decide

/-! ## The scanner -/

theorem indexByte_some : ∀ (data : List Char) (c : Char) (i : Nat),
    indexByte data c = some i →
    ∃ pre post, data = pre ++ c :: post ∧ pre.length = i ∧ c ∉ pre
  | [], _, _, h => by simp [indexByte] at h
  | x :: xs, c, i, h => by
    unfold indexByte at h
    by_cases hx : x = c
    · rw [if_pos hx] at h
      injection h with h
      exact ⟨[], xs, by simp [hx], by simpa using h, by simp⟩
    · rw [if_neg hx] at h
      cases hi : indexByte xs c with
      | none => rw [hi] at h; cases h
      | some j =>
        rw [hi] at h
        simp only [Option.map_some', Option.some.injEq] at h
        obtain ⟨pre, post, hd, hl, hn⟩ := indexByte_some xs c j hi
        refine ⟨x :: pre, post, by simp [hd], by simp [hl, h], ?_⟩
        intro hm
        rcases List.mem_cons.mp hm with h1 | h1
        · exact hx h1.symm
        · exact hn h1

theorem indexByte_none : ∀ (data : List Char) (c : Char),
    indexByte data c = none → c ∉ data
  | [], _, _ => by simp
  | x :: xs, c, h => by
    unfold indexByte at h
    by_cases hx : x = c
    · rw [if_pos hx] at h; cases h
    · rw [if_neg hx] at h
      cases hi : indexByte xs c with
      | some j => rw [hi] at h; cases h
      | none =>
        intro hm
        rcases List.mem_cons.mp hm with h1 | h1
        · exact hx h1.symm
        · exact indexByte_none xs c hi h1

theorem indexByte_append : ∀ (pre post : List Char) (c : Char), c ∉ pre →
    indexByte (pre ++ c :: post) c = some pre.length
  | [], _, _, _ => by simp [indexByte]
  | x :: pre, post, c, h => by
    have hx : x ≠ c := fun hx => h (hx ▸ List.mem_cons_self _ _)
    have ih := indexByte_append pre post c (fun hm => h (List.mem_cons_of_mem _ hm))
    simp [indexByte, hx, ih]

theorem indexByte_of_not_mem : ∀ (data : List Char) (c : Char), c ∉ data →
    indexByte data c = none
  | [], _, _ => rfl
  | x :: xs, c, h => by
    have hx : x ≠ c := fun hx => h (hx ▸ List.mem_cons_self _ _)
    have ih := indexByte_of_not_mem xs c (fun hm => h (List.mem_cons_of_mem _ hm))
    simp [indexByte, hx, ih]

theorem ScanLines_advance_le (data : List Char) (atEOF : Bool) :
    (ScanLines data atEOF).1 ≤ data.length := by
  unfold ScanLines
  split
  · simp
  · cases hi : indexByte data '\n' with
    | some i =>
      obtain ⟨pre, post, hd, hl, -⟩ := indexByte_some data '\n' i hi
      simp only
      rw [hd, List.length_append, List.length_cons]
      omega
    | none =>
      simp only
      split <;> simp

theorem ScanLines_token_advance (data : List Char) (atEOF : Bool)
    (h : (ScanLines data atEOF).2.isSome = true) : 1 ≤ (ScanLines data atEOF).1 := by
  unfold ScanLines at h ⊢
  split
  · rename_i h0
    rw [if_pos h0] at h
    cases h
  · rename_i h0
    rw [if_neg h0] at h
    cases hi : indexByte data '\n' with
    | some i => simp
    | none =>
      rw [hi] at h
      simp only at h ⊢
      by_cases he : atEOF = true
      · rw [if_pos he]
        simp only [he, Bool.true_and, decide_eq_true_eq] at h0
        simp only
        omega
      · rw [if_neg he] at h
        cases h

theorem NewScanner_WF (r : Reader) : (NewScanner r).WF := by
  simp [Scanner.WF, NewScanner, Scanner.stop, maxTokenSize]

theorem Scanner.makeRoom_none (s : Scanner) (h : s.makeRoom = none) :
    s.held.length = s.cap ∧ maxTokenSize ≤ s.cap := by
  unfold Scanner.makeRoom at h
  simp only [Scanner.stop] at h
  split_ifs at h <;> simp only [Scanner.stop] at * <;> omega

theorem Scanner.makeRoom_some (s s2 : Scanner) (hwf : s.WF) (h : s.makeRoom = some s2) :
    s2.r = s.r ∧ s2.held = s.held ∧ s2.err = s.err ∧ s2.token = s.token ∧
      s2.stop < s2.cap ∧ s2.cap ≤ maxTokenSize := by
  unfold Scanner.makeRoom at h
  obtain ⟨h1, h2⟩ := hwf
  simp only [Scanner.stop, maxTokenSize, startBufSize] at h h1 h2 ⊢
  split_ifs at h <;> injection h with h <;> subst h <;>
    refine ⟨rfl, rfl, rfl, rfl, ?_, ?_⟩ <;> simp only [Scanner.stop] at * <;> omega

theorem Reader.Read_empty (r : Reader) (cap : Nat) (h : r.rest = []) :
    r.Read cap = (r, [], some (if r.broken then ScanErr.io else ScanErr.eof)) := by
  unfold Reader.Read
  simp [h]

theorem Reader.Read_nonempty (r : Reader) (cap : Nat) (h : r.rest ≠ []) (hc : 0 < cap) :
    ∃ n, 1 ≤ n ∧ n ≤ cap ∧ n ≤ r.rest.length ∧
      r.Read cap =
        ({ r with rest := r.rest.drop n, sizes := r.sizes.tail }, r.rest.take n, none) := by
  have hl : 0 < r.rest.length := List.length_pos.mpr h
  unfold Reader.Read
  rw [if_neg (by omega)]
  cases hs : r.sizes with
  | nil => exact ⟨min cap r.rest.length, by omega, by omega, by omega, rfl⟩
  | cons k ks => exact ⟨min cap (min (k + 1) r.rest.length), by omega, by omega, by omega, rfl⟩

theorem Scanner.fill_empty (s : Scanner) (h : s.r.rest = []) :
    s.fill = ({ s with held := s.held ++ [] } : Scanner).setErr
      (if s.r.broken then ScanErr.io else ScanErr.eof) := by
  unfold Scanner.fill
  rw [Reader.Read_empty _ _ h]

theorem Scanner.fill_nonempty (s : Scanner) (h : s.r.rest ≠ []) (hc : s.stop < s.cap) :
    ∃ n, 1 ≤ n ∧ n ≤ s.cap - s.stop ∧ n ≤ s.r.rest.length ∧
      s.fill = { s with
        r := { s.r with rest := s.r.rest.drop n, sizes := s.r.sizes.tail }
        held := s.held ++ s.r.rest.take n } := by
  obtain ⟨n, h1, h2, h3, hr⟩ := Reader.Read_nonempty s.r (s.cap - s.stop) h (by omega)
  refine ⟨n, h1, h2, h3, ?_⟩
  unfold Scanner.fill
  rw [hr]

theorem Scanner.setErr_fields (s : Scanner) (e : ScanErr) :
    (s.setErr e).r = s.r ∧ (s.setErr e).cap = s.cap ∧ (s.setErr e).start = s.start ∧
      (s.setErr e).held = s.held ∧ (s.setErr e).token = s.token := by
  unfold Scanner.setErr
  split <;> exact ⟨rfl, rfl, rfl, rfl, rfl⟩

theorem Scanner.setErr_isSome (s : Scanner) (e : ScanErr) : (s.setErr e).err.isSome = true := by
  unfold Scanner.setErr
  split
  · rfl
  · rename_i h
    cases he : s.err with
    | none => exact absurd (Or.inl he) h
    | some x => rfl

theorem Scanner.setErr_WF (s : Scanner) (e : ScanErr) (h : s.WF) : (s.setErr e).WF := by
  obtain ⟨_, h2, h3, h4, _⟩ := Scanner.setErr_fields s e
  unfold Scanner.WF Scanner.stop at *
  rw [h2, h3, h4]; exact h

theorem Scanner.afterSplit_fields (s : Scanner) :
    s.afterSplit.r = s.r ∧ s.afterSplit.cap = s.cap ∧ s.afterSplit.err = s.err ∧
      s.afterSplit.stop = s.stop ∧ s.afterSplit.held.length ≤ s.held.length ∧
      ((s.canSplit && s.afterSplit.token.isSome) = true →
        s.afterSplit.held.length + 1 ≤ s.held.length) := by
  unfold Scanner.afterSplit
  have hle := ScanLines_advance_le s.held s.err.isSome
  by_cases hc : s.canSplit = true
  · rw [if_pos hc]
    refine ⟨rfl, rfl, rfl, ?_, ?_, ?_⟩
    · simp only [Scanner.stop, Scanner.split, List.length_drop]; omega
    · simp only [Scanner.split, List.length_drop]; omega
    · intro ht
      simp only [hc, Bool.true_and, Scanner.split] at ht
      have := ScanLines_token_advance _ _ ht
      simp only [Scanner.split, List.length_drop]; omega
  · rw [if_neg hc]
    refine ⟨rfl, rfl, rfl, rfl, le_refl _, ?_⟩
    intro ht
    simp only [Bool.not_eq_true] at hc
    simp [hc] at ht

theorem Scanner.scanLoop_succ (fuel : Nat) (s : Scanner) :
    Scanner.scanLoop (fuel + 1) s =
      if (s.canSplit && s.afterSplit.token.isSome) = true then some (s.afterSplit, true)
      else if s.afterSplit.err.isSome = true then
        some ({ s.afterSplit with start := 0, held := [] }, false)
      else
        match s.afterSplit.makeRoom with
        | none => some (s.afterSplit.setErr ScanErr.tooLong, false)
        | some s2 => Scanner.scanLoop fuel s2.fill := by
  rfl

/-- The loop of `Scanner.Scan` returns on every scanner in range, given fuel for one
pass per unread byte and two more; it never lengthens what is left to scan, and
a token shortens it. -/
theorem Scanner.scanLoop_total : ∀ (fuel : Nat) (s : Scanner), s.WF →
    (s.err = none → s.r.rest.length + 2 ≤ fuel) → 1 ≤ fuel →
    ∃ s1 ok, Scanner.scanLoop fuel s = some (s1, ok) ∧ s1.WF ∧
      s1.held.length + s1.r.rest.length + (if ok then 1 else 0) ≤
        s.held.length + s.r.rest.length
  | 0, _, _, _, h1 => by omega
  | fuel + 1, s, hwf, hfuel, _ => by
    obtain ⟨hr, hcap, herr, hstop, hlen, htok⟩ := Scanner.afterSplit_fields s
    have hwf1 : s.afterSplit.WF := by
      unfold Scanner.WF at hwf ⊢
      rw [hstop, hcap]; exact hwf
    rw [Scanner.scanLoop_succ]
    by_cases h1 : (s.canSplit && s.afterSplit.token.isSome) = true
    · rw [if_pos h1]
      refine ⟨_, _, rfl, hwf1, ?_⟩
      have := htok h1
      simp only [if_true, hr]
      omega
    · rw [if_neg h1]
      by_cases h2 : s.afterSplit.err.isSome = true
      · rw [if_pos h2]
        refine ⟨_, _, rfl, ?_, ?_⟩
        · unfold Scanner.WF Scanner.stop
          simp only [List.length_nil]
          exact ⟨by omega, hwf1.2⟩
        · simp only [List.length_nil, Bool.false_eq_true, if_false, hr]
          omega
      · rw [if_neg h2]
        cases hm : s.afterSplit.makeRoom with
        | none =>
          simp only
          obtain ⟨f1, _, _, f4, _⟩ := Scanner.setErr_fields s.afterSplit ScanErr.tooLong
          refine ⟨_, _, rfl, Scanner.setErr_WF _ _ hwf1, ?_⟩
          simp only [Bool.false_eq_true, if_false, f1, f4, hr]
          omega
        | some s2 =>
          simp only
          obtain ⟨g1, g2, g3, -, g5, g6⟩ := Scanner.makeRoom_some _ _ hwf1 hm
          have hnone : s.err = none := by
            rw [herr] at h2
            cases he : s.err with
            | none => rfl
            | some x => rw [he] at h2; exact absurd rfl h2
          have hf := hfuel hnone
          by_cases hrest : s2.r.rest = []
          · have hfill := Scanner.fill_empty s2 hrest
            obtain ⟨f1, f2, f3, f4, _⟩ := Scanner.setErr_fields
              ({ s2 with held := s2.held ++ [] } : Scanner)
              (if s2.r.broken then ScanErr.io else ScanErr.eof)
            have hwf3 : s2.fill.WF := by
              rw [hfill]
              apply Scanner.setErr_WF
              unfold Scanner.WF Scanner.stop
              simp only [List.append_nil]
              unfold Scanner.stop at g5
              exact ⟨by omega, g6⟩
            have hsome : s2.fill.err.isSome = true := by
              rw [hfill]; exact Scanner.setErr_isSome _ _
            obtain ⟨s3, ok, hl, hw, hmeas⟩ := Scanner.scanLoop_total fuel s2.fill hwf3
              (fun hn => by rw [hn] at hsome; cases hsome) (by omega)
            refine ⟨s3, ok, hl, hw, ?_⟩
            have e1 : s2.fill.held = s2.held := by rw [hfill, f4]; simp
            have e2 : s2.fill.r = s2.r := by rw [hfill, f1]
            rw [e1, e2, g2, g1, hr] at hmeas
            generalize (if ok = true then 1 else 0) = k at hmeas ⊢
            omega
          · obtain ⟨n, n1, n2, n3, hfill⟩ := Scanner.fill_nonempty s2 hrest g5
            have hwf3 : s2.fill.WF := by
              rw [hfill]
              unfold Scanner.WF Scanner.stop
              simp only [List.length_append, List.length_take]
              unfold Scanner.stop at n2 g5
              exact ⟨by omega, g6⟩
            have e1 : s2.fill.held.length = s2.held.length + n := by
              rw [hfill]; simp only [List.length_append, List.length_take]; omega
            have e2 : s2.fill.r.rest.length = s2.r.rest.length - n := by
              rw [hfill]; simp only [List.length_drop]
            have e3 : s2.r.rest.length = s.r.rest.length := by rw [g1, hr]
            obtain ⟨s3, ok, hl, hw, hmeas⟩ := Scanner.scanLoop_total fuel s2.fill hwf3
              (fun _ => by omega) (by omega)
            refine ⟨s3, ok, hl, hw, ?_⟩
            rw [e1, e2, g2] at hmeas
            generalize (if ok = true then 1 else 0) = k at hmeas ⊢
            omega

/-- The loop of `readLines` returns, given fuel for one call of `Scan` per byte left
and one more. -/
theorem readLoop_total : ∀ (fuel : Nat) (s : Scanner) (acc : Option (List (List Char))),
    s.WF → s.held.length + s.r.rest.length + 1 ≤ fuel →
    ∃ res, readLoop fuel s acc = some res
  | 0, _, _, _, h => by omega
  | fuel + 1, s, acc, hwf, hfuel => by
    obtain ⟨s1, ok, hl, hw, hmeas⟩ := Scanner.scanLoop_total (s.r.rest.length + 2) s hwf
      (fun _ => le_refl _) (by omega)
    unfold readLoop Scanner.Scan
    rw [hl]
    cases ok with
    | false => exact ⟨_, rfl⟩
    | true =>
      simp only [if_true] at hmeas
      exact readLoop_total fuel s1 _ hw (by omega)

theorem readLines_total (opened : Option Reader) : ∃ res, readLines opened = some res := by
  cases opened with
  | none => exact ⟨_, rfl⟩
  | some r =>
    obtain ⟨⟨s, lines⟩, h⟩ := readLoop_total (r.rest.length + 2) (NewScanner r) none
      (NewScanner_WF r) (by simp [NewScanner])
    unfold readLines
    simp only [h]
    cases s.Err with
    | none => exact ⟨_, rfl⟩
    | some e => exact ⟨_, rfl⟩

/-! ## The scanner on a file of newline-terminated lines -/

theorem ScanLines_no_newline (data : List Char) (h : '\n' ∉ data) :
    ScanLines data false = (0, none) := by
  unfold ScanLines
  simp [indexByte_of_not_mem data '\n' h]

theorem ScanLines_newline (l x : List Char) (atEOF : Bool) (h : '\n' ∉ l) :
    ScanLines (l ++ '\n' :: x) atEOF = (l.length + 1, some (dropCR l)) := by
  unfold ScanLines
  have h0 : ¬ ((atEOF && decide ((l ++ '\n' :: x).length = 0)) = true) := by simp
  rw [if_neg h0, indexByte_append l x '\n' h]
  simp

theorem dropCR_eq (l : List Char) (h : l.getLast? ≠ some '\r') : dropCR l = l := by
  unfold dropCR
  rw [if_neg h]

theorem Scanner.afterSplit_no_newline (s : Scanner) (he : s.err = none) (h : '\n' ∉ s.held) :
    s.afterSplit.held = s.held ∧ (s.canSplit && s.afterSplit.token.isSome) = false := by
  unfold Scanner.afterSplit
  by_cases hc : s.canSplit = true
  · rw [if_pos hc]
    simp [Scanner.split, he, ScanLines_no_newline s.held h]
  · rw [if_neg hc]
    simp only [Bool.not_eq_true] at hc
    simp [hc]

theorem Scanner.afterSplit_newline (s : Scanner) (l x : List Char) (h : '\n' ∉ l)
    (hh : s.held = l ++ '\n' :: x) :
    s.canSplit = true ∧ s.afterSplit.held = x ∧ s.afterSplit.token = some (dropCR l) := by
  have hc : s.canSplit = true := by
    unfold Scanner.canSplit
    simp [hh]
  unfold Scanner.afterSplit
  rw [if_pos hc]
  refine ⟨hc, ?_, ?_⟩
  · simp only [Scanner.split, hh, ScanLines_newline l x _ h]
    have hlen : l.length + 1 = (l ++ ['\n']).length := by simp
    rw [hlen, show l ++ '\n' :: x = (l ++ ['\n']) ++ x by simp, List.drop_left]
  · simp only [Scanner.split, hh, ScanLines_newline l x _ h]

/-- One pass of the loop of `Scan` that finds no newline in what is held and reads
more of the file. -/
theorem Scanner.scanLoop_more (fuel : Nat) (s : Scanner) (hwf : s.WF) (herr : s.err = none)
    (hnl : '\n' ∉ s.held) (hlen : s.held.length < maxTokenSize) (hrest : s.r.rest ≠ []) :
    ∃ s3, Scanner.scanLoop (fuel + 1) s = Scanner.scanLoop fuel s3 ∧ s3.WF ∧ s3.err = none ∧
      s3.held ++ s3.r.rest = s.held ++ s.r.rest ∧ s3.r.rest.length < s.r.rest.length ∧
      s3.r.broken = s.r.broken := by
  obtain ⟨hr, hcap, herr1, hstop, -, -⟩ := Scanner.afterSplit_fields s
  have hwf1 : s.afterSplit.WF := by
    unfold Scanner.WF at hwf ⊢
    rw [hstop, hcap]; exact hwf
  obtain ⟨k1, k2⟩ := Scanner.afterSplit_no_newline s herr hnl
  rw [Scanner.scanLoop_succ, if_neg (by rw [k2]; decide),
    if_neg (by rw [herr1, herr]; decide)]
  cases hm : s.afterSplit.makeRoom with
  | none =>
    exfalso
    obtain ⟨m1, m2⟩ := Scanner.makeRoom_none _ hm
    rw [k1] at m1
    omega
  | some s2 =>
    simp only
    obtain ⟨g1, g2, g3, -, g5, g6⟩ := Scanner.makeRoom_some _ _ hwf1 hm
    have hrest2 : s2.r.rest ≠ [] := by rw [g1, hr]; exact hrest
    have hpos : 0 < s.r.rest.length := List.length_pos.mpr hrest
    obtain ⟨n, n1, n2, n3, hfill⟩ := Scanner.fill_nonempty s2 hrest2 g5
    refine ⟨s2.fill, rfl, ?_, ?_, ?_, ?_, ?_⟩
    · rw [hfill]
      unfold Scanner.WF Scanner.stop
      simp only [List.length_append, List.length_take]
      unfold Scanner.stop at n2 g5
      exact ⟨by omega, g6⟩
    · rw [hfill]; simp only; rw [g3, herr1, herr]
    · rw [hfill]
      simp only [List.append_assoc, List.take_append_drop]
      rw [g2, k1, g1, hr]
    · rw [hfill]; simp only [List.length_drop]
      rw [g1, hr] at n3 ⊢
      omega
    · rw [hfill]; simp only; rw [g1, hr]

/-- One call of `Scan` when a whole line `l` and its newline are still to come:
the token is the line (less a final carriage return) and the rest of the text
is what remains. -/
theorem Scanner.scanLoop_line : ∀ (fuel : Nat) (s : Scanner) (l tail : List Char),
    s.WF → s.err = none → s.held ++ s.r.rest = l ++ '\n' :: tail → '\n' ∉ l →
    l.length < maxTokenSize → s.r.rest.length + 1 ≤ fuel →
    ∃ s1, Scanner.scanLoop fuel s = some (s1, true) ∧ s1.WF ∧ s1.err = none ∧
      s1.token = some (dropCR l) ∧ s1.held ++ s1.r.rest = tail ∧ s1.r.broken = s.r.broken
  | 0, _, _, _, _, _, _, _, _, h => by omega
  | fuel + 1, s, l, tail, hwf, herr, htext, hl, hlen, hfuel => by
    by_cases hcase : '\n' ∈ s.held
    · -- the newline is already held
      obtain ⟨hr, hcap, herr1, hstop, -, -⟩ := Scanner.afterSplit_fields s
      have hwf1 : s.afterSplit.WF := by
        unfold Scanner.WF at hwf ⊢
        rw [hstop, hcap]; exact hwf
      rcases List.append_eq_append_iff.mp htext with ⟨a, ha1, -⟩ | ⟨a, ha1, ha2⟩
      · exact absurd (ha1 ▸ List.mem_append_left a hcase) hl
      · cases a with
        | nil =>
          rw [List.append_nil] at ha1
          exact absurd (ha1 ▸ hcase) hl
        | cons c x =>
          rw [List.cons_append, List.cons.injEq] at ha2
          obtain ⟨hc, hx⟩ := ha2
          subst hc
          obtain ⟨k1, k2, k3⟩ := Scanner.afterSplit_newline s l x hl ha1
          have hpos : (s.canSplit && s.afterSplit.token.isSome) = true := by
            rw [k1, k3]; rfl
          rw [Scanner.scanLoop_succ, if_pos hpos]
          refine ⟨_, rfl, hwf1, by rw [herr1, herr], k3, ?_, by rw [hr]⟩
          rw [k2, hr, hx]
    · -- the newline is still in the file
      have hpre : s.held.length ≤ l.length ∧ s.r.rest ≠ [] := by
        rcases List.append_eq_append_iff.mp htext with ⟨a, ha1, ha2⟩ | ⟨a, ha1, ha2⟩
        · refine ⟨?_, by rw [ha2]; simp⟩
          rw [ha1, List.length_append]; omega
        · cases a with
          | nil =>
            rw [List.append_nil] at ha1
            rw [List.nil_append] at ha2
            exact ⟨by rw [ha1], by rw [← ha2]; simp⟩
          | cons c x =>
            rw [List.cons_append, List.cons.injEq] at ha2
            exfalso; apply hcase
            rw [ha1, ← ha2.1]
            exact List.mem_append_right _ (List.mem_cons_self _ _)
      obtain ⟨s3, h1, h2, h3, h4, h5, h6⟩ :=
        Scanner.scanLoop_more fuel s hwf herr hcase (by omega) hpre.2
      obtain ⟨s4, q1, q2, q3, q4, q5, q6⟩ :=
        Scanner.scanLoop_line fuel s3 l tail h2 h3 (by rw [h4]; exact htext) hl hlen (by omega)
      exact ⟨s4, by rw [h1]; exact q1, q2, q3, q4, q5, by rw [q6, h6]⟩

/-- The call of `Scan` at the end of a file that reads without error: it returns
false and leaves `io.EOF`, which `Err` does not report. -/
theorem Scanner.scanLoop_end (fuel : Nat) (s : Scanner) (hwf : s.WF) (herr : s.err = none)
    (hheld : s.held = []) (hrest : s.r.rest = []) (hb : s.r.broken = false) :
    ∃ s1, Scanner.scanLoop (fuel + 2) s = some (s1, false) ∧ s1.Err = none := by
  obtain ⟨hr, hcap, herr1, hstop, -, -⟩ := Scanner.afterSplit_fields s
  have hwf1 : s.afterSplit.WF := by
    unfold Scanner.WF at hwf ⊢
    rw [hstop, hcap]; exact hwf
  obtain ⟨k1, k2⟩ := Scanner.afterSplit_no_newline s herr (by rw [hheld]; simp)
  rw [Scanner.scanLoop_succ, if_neg (by rw [k2]; decide),
    if_neg (by rw [herr1, herr]; decide)]
  cases hm : s.afterSplit.makeRoom with
  | none =>
    exfalso
    obtain ⟨m1, m2⟩ := Scanner.makeRoom_none _ hm
    rw [k1, hheld] at m1
    simp only [List.length_nil, maxTokenSize] at m1 m2
    omega
  | some s2 =>
    simp only
    obtain ⟨g1, g2, g3, -, g5, g6⟩ := Scanner.makeRoom_some _ _ hwf1 hm
    have hrest2 : s2.r.rest = [] := by rw [g1, hr]; exact hrest
    have hfill := Scanner.fill_empty s2 hrest2
    have hb2 : s2.r.broken = false := by rw [g1, hr]; exact hb
    have he2 : s2.err = none := by rw [g3, herr1, herr]
    have hh2 : s2.held = [] := by rw [g2, k1, hheld]
    rw [hb2] at hfill
    simp only [Bool.false_eq_true, if_false, hh2, List.append_nil] at hfill
    have hfill2 : s2.fill = { s2 with held := [], err := some ScanErr.eof } := by
      rw [hfill]
      unfold Scanner.setErr
      simp [he2]
    rw [hfill2, Scanner.scanLoop_succ]
    have hcs : ({ s2 with held := [], err := some ScanErr.eof } : Scanner).afterSplit =
        { s2 with held := [], err := some ScanErr.eof, token := none } := by
      simp [Scanner.afterSplit, Scanner.canSplit, Scanner.split, ScanLines]
    rw [hcs]
    simp only [Option.isSome_none, Bool.and_false, Bool.false_eq_true, if_false,
      Option.isSome_some, if_true]
    exact ⟨_, rfl, rfl⟩

theorem length_le_fileOfLines : ∀ (ls : List (List Char)), ls.length ≤ (fileOfLines ls).length
  | [] => by simp
  | l :: ls => by
    have := length_le_fileOfLines ls
    simp only [fileOfLines, List.map_cons, List.flatten_cons, List.length_append,
      List.length_cons, List.length_nil] at this ⊢
    omega

/-- The loop of `readLines` over a file of newline-terminated lines appends the
lines in order and ends without error. -/
theorem readLoop_lines : ∀ (ls : List (List Char)) (fuel : Nat) (s : Scanner)
    (acc : Option (List (List Char))),
    s.WF → s.err = none → s.held ++ s.r.rest = fileOfLines ls → s.r.broken = false →
    (∀ l ∈ ls, '\n' ∉ l ∧ l.getLast? ≠ some '\r' ∧ l.length < maxTokenSize) →
    ls.length + 1 ≤ fuel →
    ∃ s1, readLoop fuel s acc = some (s1, if ls = [] then acc else some (acc.getD [] ++ ls)) ∧
      s1.Err = none
  | _, 0, _, _, _, _, _, _, _, h => by omega
  | [], fuel + 1, s, acc, hwf, herr, htext, hb, _, _ => by
    simp only [fileOfLines, List.map_nil, List.flatten_nil, List.append_eq_nil] at htext
    obtain ⟨s1, h1, h2⟩ := Scanner.scanLoop_end s.r.rest.length s hwf herr htext.1 htext.2 hb
    unfold readLoop Scanner.Scan
    rw [h1]
    exact ⟨s1, rfl, h2⟩
  | l :: ls, fuel + 1, s, acc, hwf, herr, htext, hb, hls, hfuel => by
    obtain ⟨hl1, hl2, hl3⟩ := hls l (List.mem_cons_self _ _)
    have htext2 : s.held ++ s.r.rest = l ++ '\n' :: fileOfLines ls := by
      rw [htext]; simp [fileOfLines]
    obtain ⟨s1, q1, q2, q3, q4, q5, q6⟩ :=
      Scanner.scanLoop_line (s.r.rest.length + 2) s l (fileOfLines ls) hwf herr htext2 hl1 hl3
        (by omega)
    obtain ⟨s2, r1, r2⟩ := readLoop_lines ls fuel s1 (appendLine acc s1.Text) q2 q3 q5
      (by rw [q6, hb]) (fun x hx => hls x (List.mem_cons_of_mem _ hx))
      (by simp only [List.length_cons] at hfuel; omega)
    unfold readLoop Scanner.Scan
    rw [q1]
    simp only
    refine ⟨s2, ?_, r2⟩
    rw [r1]
    have htok : s1.Text = l := by
      unfold Scanner.Text
      rw [q4, dropCR_eq l hl2]; rfl
    rw [htok]
    simp only [appendLine, Option.getD_some, List.cons_ne_nil, if_false]
    by_cases hnil : ls = []
    · simp [hnil]
    · simp [hnil]

/-! ## The loader: the claims -/

/-- C7: `readLines` always returns, and what it returns is either a `nil` list with
an error or a list with a `nil` error: a failed open gives `nil` and the error,
and so does a read error that comes after two lines were already scanned. -/
theorem readLines_all_or_nothing (opened : Option Reader) :
    (∃ lines err, readLines opened = some (lines, err) ∧
      (err ≠ none → lines = none) ∧ (lines ≠ none → err = none)) ∧
    readLines none = some (none, some ScanErr.io) ∧
    readLines (some { rest := "ab\ncd\nef".toList, broken := true, sizes := [] }) =
      some (none, some ScanErr.io) ∧
    readLines (some { rest := "ab\ncd\nef".toList, broken := false, sizes := [] }) =
      some (some ["ab".toList, "cd".toList, "ef".toList], none) := by
  refine ⟨?_, rfl, by decide, by decide⟩
  cases opened with
  | none => exact ⟨none, some ScanErr.io, rfl, fun _ => rfl, fun h => absurd rfl h⟩
  | some r =>
    obtain ⟨⟨s, lines⟩, h⟩ := readLoop_total (r.rest.length + 2) (NewScanner r) none
      (NewScanner_WF r) (by simp [NewScanner])
    unfold readLines
    simp only [h]
    cases s.Err with
    | none => exact ⟨lines, none, rfl, fun h => absurd rfl h, fun _ => rfl⟩
    | some e => exact ⟨none, some e, rfl, fun _ => rfl, fun h => absurd rfl h⟩

/-- C4: on a file made of N lines, each followed by a newline, none holding a
newline or ending in a carriage return and each shorter than the scanner's
token limit of 64 KiB, `readLines` returns exactly those N lines, in file
order and with no error, however the reads cut the file; empty lines are kept,
and N = 0 gives the empty (`nil`) list. -/
theorem readLines_lines (lines : List (List Char)) (sizes : List Nat)
    (h : ∀ l ∈ lines, '\n' ∉ l ∧ l.getLast? ≠ some '\r' ∧ l.length < maxTokenSize) :
    readLines (some { rest := fileOfLines lines, broken := false, sizes := sizes }) =
      some (if lines = [] then none else some lines, none) := by
  obtain ⟨s1, h1, h2⟩ := readLoop_lines lines ((fileOfLines lines).length + 2)
    (NewScanner { rest := fileOfLines lines, broken := false, sizes := sizes }) none
    (NewScanner_WF _) rfl (by simp [NewScanner]) rfl h
    (by have := length_le_fileOfLines lines; omega)
  unfold readLines
  simp only [h1, h2, Option.getD_none, List.nil_append]

theorem readLines_lines_witness :
    (∀ l ∈ ["https://a.b".toList, [], "c\rd".toList],
      '\n' ∉ l ∧ l.getLast? ≠ some '\r' ∧ l.length < maxTokenSize) ∧
    readLines (some {
        rest := fileOfLines ["https://a.b".toList, [], "c\rd".toList]
        broken := false
        sizes := [0, 3] }) =
      some (if ["https://a.b".toList, [], "c\rd".toList] = [] then none
        else some ["https://a.b".toList, [], "c\rd".toList], none) :=
  ⟨by decide, readLines_lines _ _ (by decide)⟩

/-! ## One worker: the claim -/

/-- C5: a worker that receives a list of URLs sends exactly one Result for each
URL whose body was read, in order, and none for a URL whose GET or body read
failed; it prints one message for each failure and goes on.  So the Results
are those of the same list with the failing URLs removed. -/
theorem worker_skips_failures (jobs : List (List Char × FetchOutcome)) :
    (worker jobs).1 = (worker (jobs.filter (fun j => !j.2.failed))).1 ∧
    (worker jobs).1 = jobs.filterMap (fun j => j.2.result) ∧
    (worker jobs).2 = jobs.filterMap (fun j => j.2.message j.1) ∧
    (worker (jobs.filter (fun j => !j.2.failed))).2 = [] := by
  induction jobs with
  | nil => exact ⟨rfl, rfl, rfl, rfl⟩
  | cons j rest ih =>
    obtain ⟨ih1, ih2, ih3, ih4⟩ := ih
    obtain ⟨url, o⟩ := j
    cases o with
    | getError =>
      simp only [worker, List.filter_cons, FetchOutcome.failed, Bool.not_true,
        Bool.false_eq_true, if_false, List.filterMap_cons, FetchOutcome.result,
        FetchOutcome.message]
      exact ⟨ih1, ih2, congrArg _ ih3, ih4⟩
    | readError =>
      simp only [worker, List.filter_cons, FetchOutcome.failed, Bool.not_true,
        Bool.false_eq_true, if_false, List.filterMap_cons, FetchOutcome.result,
        FetchOutcome.message]
      exact ⟨ih1, ih2, congrArg _ ih3, ih4⟩
    | body b =>
      simp only [worker, List.filter_cons, FetchOutcome.failed, Bool.not_false,
        if_true, List.filterMap_cons, FetchOutcome.result, FetchOutcome.message]
      exact ⟨congrArg _ ih1, congrArg _ ih2, ih3, ih4⟩

/-! ## The pool: invariants -/

theorem mem_of_getElem?_eq {α : Type} (l : List α) (i : Nat) (a : α) (h : l[i]? = some a) :
    a ∈ l := by
  obtain ⟨hi, rfl⟩ := List.getElem?_eq_some.mp h
  exact List.getElem_mem hi

theorem countP_set_of_getElem? {α : Type} (p : α → Bool) : ∀ (l : List α) (i : Nat) (a b : α),
    l[i]? = some a →
    (l.set i b).countP p + (if p a then 1 else 0) = l.countP p + (if p b then 1 else 0)
  | [], _, _, _, h => by simp at h
  | x :: xs, 0, a, b, h => by
    simp only [List.getElem?_cons_zero, Option.some.injEq] at h
    subst h
    simp only [List.set_cons_zero, List.countP_cons]
    omega
  | x :: xs, i + 1, a, b, h => by
    simp only [List.getElem?_cons_succ] at h
    have := countP_set_of_getElem? p xs i a b h
    simp only [List.set_cons_succ, List.countP_cons]
    omega

theorem pending_set (ws : List WState) (w v : Nat) (a x : WState) (h : ws[w]? = some a) :
    pending (ws.set w x)[v]? = if v = w then pending (some x) else pending ws[v]? := by
  by_cases hv : v = w
  · subst hv
    obtain ⟨hi, -⟩ := List.getElem?_eq_some.mp h
    rw [if_pos rfl, List.getElem?_set_self hi]
  · rw [if_neg hv, List.getElem?_set_ne (fun h => hv h.symm)]

theorem pending_append_idle (ws : List WState) (v : Nat) :
    pending (ws ++ [WState.idle])[v]? = pending ws[v]? := by
  by_cases hv : v < ws.length
  · rw [List.getElem?_append_left hv]
  · have hn : ws[v]? = none := List.getElem?_eq_none (by omega)
    rw [hn]
    by_cases hv2 : v = ws.length
    · subst hv2
      rw [List.getElem?_append_right (le_refl _)]
      simp [pending]
    · have : (ws ++ [WState.idle])[v]? = none :=
        List.getElem?_eq_none (by simp only [List.length_append, List.length_singleton]; omega)
      rw [this]

theorem resultsOf_append (w v : Nat) (log : List (Nat × List (List Char)))
    (r : List (List Char)) :
    resultsOf v (log ++ [(w, r)]) = resultsOf v log ++ (if v = w then [r] else []) := by
  unfold resultsOf
  by_cases hv : v = w
  · subst hv
    simp [List.filter_append]
  · have : ((w == v) = false) := by simpa using fun h => hv h.symm
    simp [List.filter_append, List.filter_cons, this, hv]

theorem Pool.init_inv (urls : List (List Char)) (T : Nat) : Inv urls T Pool.init where
  sent_le := Nat.zero_le _
  enq_eq := by simp [Pool.init]
  deq_eq := rfl
  closed_sent := fun h => by simp [Pool.init] at h
  wg_eq := rfl
  len_le := Nat.zero_le _
  len_eq := fun h => absurd rfl h
  closer_pc := fun h => by simp [Pool.init] at h
  done_closed := fun h => by simp [Pool.init] at h
  link_closed := fun h => by simp [Pool.init] at h
  no_panic := rfl
  results := fun w => by simp [Pool.init, resultsOf, pending]
  sender_started := fun h => by simp [Pool.init] at h
  closer_started := fun h => by simp [Pool.init] at h
  exit_reason := fun h => by simp [Pool.init] at h
  success_closed := fun h => by simp [Pool.init] at h

theorem live_of_ne_done : ∀ (a : WState), a ≠ WState.done → a.live = true
  | .idle, _ => rfl
  | .fetching _, _ => rfl
  | .sending _, _ => rfl
  | .done, h => absurd rfl h

/-- Every step keeps the invariant. -/
theorem step_inv (urls : List (List Char)) (T : Nat) (s s1 : Pool) (a : Action)
    (h : Inv urls T s) (hs : step urls T s a = some s1) : Inv urls T s1 := by
  cases a with
  | spawn =>
    simp only [step] at hs
    split at hs
    · rename_i hc
      injection hs with hs; subst hs
      have hnl : s.linkClosed = false := by
        cases hl : s.linkClosed with
        | false => rfl
        | true => exact absurd hc.1 (h.closer_pc (h.link_closed hl).1)
      exact { h with
        wg_eq := by simp [List.countP_append, h.wg_eq, WState.live]
        len_le := by simp only [List.length_append, List.length_singleton]; omega
        len_eq := fun hp => absurd hc.1 hp
        done_closed := fun hd => by
          apply h.done_closed
          rcases List.mem_append.mp hd with hd | hd
          · exact hd
          · simp at hd
        link_closed := fun hl => by simp only [hnl] at hl; cases hl
        results := fun w => by
          simp only [pending_append_idle]; exact h.results w }
    · cases hs
  | endSpawn =>
    simp only [step] at hs
    split at hs
    · rename_i hc
      injection hs with hs; subst hs
      exact { h with
        len_eq := fun _ => by
          have h1 := h.len_le
          have h2 := hc.2
          show s.workers.length = T
          omega
        closer_pc := fun _ => by simp
        sender_started := fun hp => by simp at hp
        closer_started := fun hp => by simp at hp
        exit_reason := fun hp => by simp at hp }
    · cases hs
  | startSender =>
    simp only [step] at hs
    split at hs
    · rename_i hc
      injection hs with hs; subst hs
      exact { h with
        len_eq := fun _ => h.len_eq (by rw [hc]; simp)
        closer_pc := fun _ => by simp
        sender_started := fun _ => rfl
        closer_started := fun hp => by simp at hp
        exit_reason := fun hp => by simp at hp }
    · cases hs
  | startCloser =>
    simp only [step] at hs
    split at hs
    · rename_i hc
      injection hs with hs; subst hs
      exact { h with
        len_eq := fun _ => h.len_eq (by rw [hc]; simp)
        closer_pc := fun _ => by simp
        link_closed := fun hl => ⟨rfl, (h.link_closed hl).2⟩
        sender_started := fun _ => h.sender_started (Or.inl hc)
        closer_started := fun _ => rfl
        exit_reason := fun hp => by simp at hp }
    · cases hs
  | create ok =>
    simp only [step] at hs
    split at hs
    · rename_i hc
      split at hs <;> (injection hs with hs; subst hs)
      · exact { h with
          len_eq := fun _ => h.len_eq (by rw [hc]; simp)
          closer_pc := fun _ => by simp
          sender_started := fun _ => h.sender_started (Or.inr (Or.inl hc))
          closer_started := fun _ => h.closer_started (Or.inl hc)
          exit_reason := fun hp => by simp at hp }
      · exact { h with
          len_eq := fun _ => h.len_eq (by rw [hc]; simp)
          closer_pc := fun _ => by simp
          sender_started := fun hp => by simp at hp
          closer_started := fun hp => by simp at hp
          exit_reason := fun _ => Or.inr (Or.inl (by simp))
          success_closed := fun hm => by
            apply h.success_closed
            rcases List.mem_append.mp hm with hm | hm
            · exact hm
            · simp at hm }
    · cases hs
  | closeLinks =>
    simp only [step] at hs
    split at hs
    · rename_i hc
      injection hs with hs; subst hs
      exact { h with
        link_closed := fun _ => ⟨hc.2.1, hc.2.2.2⟩
        exit_reason := fun _ => Or.inl rfl
        success_closed := fun _ => rfl }
    · cases hs
  | succeed =>
    simp only [step] at hs
    split at hs
    · rename_i hc
      injection hs with hs; subst hs
      exact { h with
        len_eq := fun _ => h.len_eq (by rw [hc.1]; simp)
        closer_pc := fun _ => by simp
        sender_started := fun hp => by simp at hp
        closer_started := fun hp => by simp at hp
        exit_reason := fun _ => Or.inl hc.2
        success_closed := fun _ => hc.2 }
    · cases hs
  | enqueue =>
    simp only [step] at hs
    split at hs
    · rename_i hc
      split at hs
      · rename_i u hu
        injection hs with hs; subst hs
        obtain ⟨hlt, hget⟩ := List.getElem?_eq_some.mp hu
        exact { h with
          sent_le := hlt
          enq_eq := by
            show s.enq ++ [u] = urls.take (s.sent + 1)
            rw [List.take_succ, hu, h.enq_eq]; rfl
          deq_eq := by
            show s.deq.map Prod.snd ++ (s.queue ++ [u]) = s.enq ++ [u]
            rw [← List.append_assoc, h.deq_eq]
          closed_sent := fun hcl => by
            have : s.urlClosed = true := hcl
            rw [hc.2.2.1] at this; cases this
          done_closed := fun hd => by
            have := (h.done_closed hd).1
            rw [hc.2.2.1] at this; cases this }
      · cases hs
    · cases hs
  | closeUrls =>
    simp only [step] at hs
    split at hs
    · rename_i hc
      injection hs with hs; subst hs
      exact { h with
        closed_sent := fun _ => hc.2.2.2
        done_closed := fun hd => ⟨rfl, (h.done_closed hd).2⟩ }
    · cases hs
  | dequeue w =>
    simp only [step] at hs
    split at hs
    · rename_i hc
      split at hs
      · rename_i u q hw hq
        injection hs with hs; subst hs
        exact { h with
          deq_eq := by
            show (s.deq ++ [(w, u)]).map Prod.snd ++ q = s.enq
            rw [← h.deq_eq, hq]; simp
          wg_eq := by
            have := countP_set_of_getElem? WState.live s.workers w _ (WState.fetching u) hw
            simp only [WState.live, if_true] at this
            show s.wg = (s.workers.set w (WState.fetching u)).countP WState.live
            rw [h.wg_eq]; omega
          len_le := by simp only [List.length_set]; exact h.len_le
          len_eq := fun hp => by simp only [List.length_set]; exact h.len_eq hp
          done_closed := fun hd => by
            rcases List.mem_or_eq_of_mem_set hd with hd | hd
            · have := (h.done_closed hd).2
              rw [hq] at this; cases this
            · cases hd
          results := fun v => by
            show resultsOf v s.produced = resultsOf v s.pushed ++
              pending (s.workers.set w (WState.fetching u))[v]?
            rw [pending_set _ _ _ _ _ hw, h.results v]
            by_cases hv : v = w
            · subst hv; rw [if_pos rfl, hw]; rfl
            · rw [if_neg hv] }
      · cases hs
    · cases hs
  | fetchFail w reading =>
    simp only [step] at hs
    split at hs
    · rename_i hc
      split at hs
      · rename_i u hw
        injection hs with hs; subst hs
        exact { h with
          wg_eq := by
            have := countP_set_of_getElem? WState.live s.workers w _ WState.idle hw
            simp only [WState.live, if_true] at this
            show s.wg = (s.workers.set w WState.idle).countP WState.live
            rw [h.wg_eq]; omega
          len_le := by simp only [List.length_set]; exact h.len_le
          len_eq := fun hp => by simp only [List.length_set]; exact h.len_eq hp
          done_closed := fun hd => by
            rcases List.mem_or_eq_of_mem_set hd with hd | hd
            · exact h.done_closed hd
            · cases hd
          results := fun v => by
            show resultsOf v s.produced = resultsOf v s.pushed ++
              pending (s.workers.set w WState.idle)[v]?
            rw [pending_set _ _ _ _ _ hw, h.results v]
            by_cases hv : v = w
            · subst hv; rw [if_pos rfl, hw]; rfl
            · rw [if_neg hv]
          exit_reason := fun hp => absurd hp hc
          success_closed := fun hm => by
            apply h.success_closed
            rcases List.mem_append.mp hm with hm | hm
            · exact hm
            · cases reading <;> simp at hm }
      · cases hs
    · cases hs
  | fetchOk w body =>
    simp only [step] at hs
    split at hs
    · rename_i hc
      split at hs
      · rename_i u hw
        injection hs with hs; subst hs
        exact { h with
          wg_eq := by
            have := countP_set_of_getElem? WState.live s.workers w _
              (WState.sending (FindAllString body)) hw
            simp only [WState.live, if_true] at this
            show s.wg = (s.workers.set w (WState.sending (FindAllString body))).countP
              WState.live
            rw [h.wg_eq]; omega
          len_le := by simp only [List.length_set]; exact h.len_le
          len_eq := fun hp => by simp only [List.length_set]; exact h.len_eq hp
          done_closed := fun hd => by
            rcases List.mem_or_eq_of_mem_set hd with hd | hd
            · exact h.done_closed hd
            · cases hd
          results := fun v => by
            show resultsOf v (s.produced ++ [(w, FindAllString body)]) =
              resultsOf v s.pushed ++
                pending (s.workers.set w (WState.sending (FindAllString body)))[v]?
            rw [pending_set _ _ _ _ _ hw, resultsOf_append, h.results v]
            by_cases hv : v = w
            · subst hv; rw [if_pos rfl, if_pos rfl, hw]; simp [pending]
            · rw [if_neg hv, if_neg hv, List.append_nil] }
      · cases hs
    · cases hs
  | handOver w written =>
    simp only [step] at hs
    split at hs
    · rename_i hc
      split at hs
      · rename_i links hw
        injection hs with hs; subst hs
        exact { h with
          wg_eq := by
            have := countP_set_of_getElem? WState.live s.workers w _ WState.idle hw
            simp only [WState.live, if_true] at this
            show s.wg = (s.workers.set w WState.idle).countP WState.live
            rw [h.wg_eq]; omega
          len_le := by simp only [List.length_set]; exact h.len_le
          len_eq := fun _ => by
            simp only [List.length_set]; exact h.len_eq (by rw [hc.1]; simp)
          closer_pc := fun _ => by cases written <;> simp
          sender_started := fun _ => h.sender_started (Or.inr (Or.inr hc.1))
          closer_started := fun _ => h.closer_started (Or.inr hc.1)
          exit_reason := fun hp => by
            cases written with
            | true => simp at hp
            | false => exact Or.inr (Or.inr (by simp))
          success_closed := fun hm => by
            apply h.success_closed
            cases written with
            | true => simpa using hm
            | false =>
              simp only [Bool.false_eq_true, if_false] at hm
              rcases List.mem_append.mp hm with hm | hm
              · exact hm
              · simp at hm
          done_closed := fun hd => by
            rcases List.mem_or_eq_of_mem_set hd with hd | hd
            · exact h.done_closed hd
            · cases hd
          results := fun v => by
            show resultsOf v s.produced = resultsOf v (s.pushed ++ [(w, links)]) ++
              pending (s.workers.set w WState.idle)[v]?
            rw [pending_set _ _ _ _ _ hw, resultsOf_append, h.results v]
            by_cases hv : v = w
            · subst hv; rw [if_pos rfl, if_pos rfl, hw]; simp [pending]
            · rw [if_neg hv, if_neg hv, List.append_nil] }
      · cases hs
    · cases hs
  | sendOnClosed w =>
    simp only [step] at hs
    split at hs
    · rename_i hc
      split at hs
      · rename_i links hw
        exfalso
        have hwg := (h.link_closed hc.2).2
        rw [h.wg_eq, List.countP_eq_zero] at hwg
        exact hwg _ (mem_of_getElem?_eq _ _ _ hw) rfl
      · cases hs
    · cases hs
  | finish w =>
    simp only [step] at hs
    split at hs
    · rename_i hc
      split at hs
      · rename_i hw
        injection hs with hs; subst hs
        have hcount := countP_set_of_getElem? WState.live s.workers w _ WState.done hw
        simp only [WState.live, if_true, Bool.false_eq_true, if_false] at hcount
        exact { h with
          wg_eq := by
            show s.wg - 1 = (s.workers.set w WState.done).countP WState.live
            rw [h.wg_eq]; omega
          len_le := by simp only [List.length_set]; exact h.len_le
          len_eq := fun hp => by simp only [List.length_set]; exact h.len_eq hp
          done_closed := fun _ => ⟨hc.2.2, hc.2.1⟩
          link_closed := fun hl => by
            have := h.link_closed hl
            exact ⟨this.1, by show s.wg - 1 = 0; omega⟩
          results := fun v => by
            show resultsOf v s.produced = resultsOf v s.pushed ++
              pending (s.workers.set w WState.done)[v]?
            rw [pending_set _ _ _ _ _ hw, h.results v]
            by_cases hv : v = w
            · subst hv; rw [if_pos rfl, hw]; rfl
            · rw [if_neg hv] }
      · cases hs
    · cases hs

theorem sum_weight_set : ∀ (ws : List WState) (i : Nat) (a b : WState),
    ws[i]? = some a →
    ((ws.set i b).map WState.weight).sum + a.weight = (ws.map WState.weight).sum + b.weight
  | [], _, _, _, h => by simp at h
  | x :: xs, 0, a, b, h => by
    simp only [List.getElem?_cons_zero, Option.some.injEq] at h
    subst h
    simp only [List.set_cons_zero, List.map_cons, List.sum_cons]
    omega
  | x :: xs, i + 1, a, b, h => by
    simp only [List.getElem?_cons_succ] at h
    have := sum_weight_set xs i a b h
    simp only [List.set_cons_succ, List.map_cons, List.sum_cons]
    omega

/-- Every step uses up some of the potential. -/
theorem step_potential (urls : List (List Char)) (T : Nat) (s s1 : Pool) (a : Action)
    (hs : step urls T s a = some s1) :
    Pool.potential urls T s1 + 1 ≤ Pool.potential urls T s := by
  cases a with
  | spawn =>
    simp only [step] at hs
    split at hs
    · rename_i hc
      cases hs
      simp only [Pool.potential, List.length_append, List.length_singleton, List.map_append,
        List.map_cons, List.map_nil, List.sum_append, List.sum_cons, List.sum_nil,
        WState.weight]
      have := hc.2
      omega
    · cases hs
  | endSpawn =>
    simp only [step] at hs
    split at hs
    · rename_i hc
      cases hs
      simp only [Pool.potential, hc.1, MainPc.rank]
      omega
    · cases hs
  | startSender =>
    simp only [step] at hs
    split at hs
    · rename_i hc
      cases hs
      simp only [Pool.potential, hc, MainPc.rank]
      omega
    · cases hs
  | startCloser =>
    simp only [step] at hs
    split at hs
    · rename_i hc
      cases hs
      simp only [Pool.potential, hc, MainPc.rank]
      omega
    · cases hs
  | create ok =>
    simp only [step] at hs
    split at hs
    · rename_i hc
      split at hs <;> cases hs <;> simp only [Pool.potential, hc, MainPc.rank] <;> omega
    · cases hs
  | enqueue =>
    simp only [step] at hs
    split at hs
    · rename_i hc
      split at hs
      · rename_i u hu
        cases hs
        obtain ⟨hlt, -⟩ := List.getElem?_eq_some.mp hu
        simp only [Pool.potential, List.length_append, List.length_singleton]
        omega
      · cases hs
    · cases hs
  | closeUrls =>
    simp only [step] at hs
    split at hs
    · rename_i hc
      cases hs
      simp only [Pool.potential, hc.2.2.1, Bool.false_eq_true, if_false, if_true]
      omega
    · cases hs
  | dequeue w =>
    simp only [step] at hs
    split at hs
    · split at hs
      · rename_i u q hw hq
        cases hs
        have := sum_weight_set s.workers w _ (WState.fetching u) hw
        simp only [WState.weight] at this
        simp only [Pool.potential, List.length_set, hq, List.length_cons]
        omega
      · cases hs
    · cases hs
  | fetchFail w reading =>
    simp only [step] at hs
    split at hs
    · split at hs
      · rename_i u hw
        cases hs
        have := sum_weight_set s.workers w _ WState.idle hw
        simp only [WState.weight] at this
        simp only [Pool.potential, List.length_set]
        omega
      · cases hs
    · cases hs
  | fetchOk w body =>
    simp only [step] at hs
    split at hs
    · split at hs
      · rename_i u hw
        cases hs
        have := sum_weight_set s.workers w _ (WState.sending (FindAllString body)) hw
        simp only [WState.weight] at this
        simp only [Pool.potential, List.length_set]
        omega
      · cases hs
    · cases hs
  | handOver w written =>
    simp only [step] at hs
    split at hs
    · rename_i hc
      split at hs
      · rename_i links hw
        cases hs
        have := sum_weight_set s.workers w _ WState.idle hw
        simp only [WState.weight] at this
        cases written <;> simp only [Pool.potential, List.length_set, hc.1, MainPc.rank,
          Bool.false_eq_true, if_false, if_true] <;> omega
      · cases hs
    · cases hs
  | sendOnClosed w =>
    simp only [step] at hs
    split at hs
    · rename_i hc
      split at hs
      · cases hs
        have hr : 1 ≤ s.pc.rank := by
          cases hp : s.pc <;> simp only [MainPc.rank] <;> first | omega | exact absurd hp hc.1
        simp only [Pool.potential, show MainPc.exited.rank = 0 from rfl]
        omega
      · cases hs
    · cases hs
  | finish w =>
    simp only [step] at hs
    split at hs
    · split at hs
      · rename_i hw
        cases hs
        have := sum_weight_set s.workers w _ WState.done hw
        simp only [WState.weight] at this
        simp only [Pool.potential, List.length_set]
        omega
      · cases hs
    · cases hs
  | closeLinks =>
    simp only [step] at hs
    split at hs
    · rename_i hc
      cases hs
      simp only [Pool.potential, hc.2.2.1, Bool.false_eq_true, if_false, if_true]
      omega
    · cases hs
  | succeed =>
    simp only [step] at hs
    split at hs
    · rename_i hc
      cases hs
      simp only [Pool.potential, hc.1, MainPc.rank]
      omega
    · cases hs

theorem runFrom_potential (urls : List (List Char)) (T : Nat) :
    ∀ (sched : List Action) (s s1 : Pool), runFrom urls T s sched = some s1 →
      Pool.potential urls T s1 + sched.length ≤ Pool.potential urls T s
  | [], s, s1, hr => by
    simp only [runFrom, Option.some.injEq] at hr
    subst hr; simp
  | a :: rest, s, s1, hr => by
    unfold runFrom at hr
    cases hst : step urls T s a with
    | none => rw [hst] at hr; cases hr
    | some s2 =>
      rw [hst] at hr
      have h1 := step_potential urls T s s2 a hst
      have h2 := runFrom_potential urls T rest s2 s1 hr
      simp only [List.length_cons]
      omega

/-- Until `main` has returned, some goroutine can make a step. -/
theorem step_progress (urls : List (List Char)) (T : Nat) (s : Pool) (h : Inv urls T s)
    (hp : s.pc ≠ .exited) : ∃ a, (step urls T s a).isSome = true := by
  cases hpc : s.pc with
  | exited => exact absurd hpc hp
  | spawning =>
    by_cases hlt : s.workers.length < T
    · exact ⟨.spawn, by simp [step, hpc, hlt]⟩
    · exact ⟨.endSpawn, by simp [step, hpc, hlt]⟩
  | sender => exact ⟨.startSender, by simp [step, hpc]⟩
  | closer => exact ⟨.startCloser, by simp [step, hpc]⟩
  | create => exact ⟨.create true, by simp [step, hpc]⟩
  | collecting =>
    have hss := h.sender_started (Or.inr (Or.inr hpc))
    have hcs := h.closer_started (Or.inr hpc)
    by_cases hl : s.linkClosed = true
    · exact ⟨.succeed, by simp [step, hpc, hl]⟩
    simp only [Bool.not_eq_true] at hl
    by_cases hwg : s.wg = 0
    · exact ⟨.closeLinks, by simp [step, hpc, hl, hwg, hcs]⟩
    have hpos : 0 < s.workers.countP WState.live := by
      rw [← h.wg_eq]; omega
    obtain ⟨x, hx, hlive⟩ := List.countP_pos_iff.mp hpos
    obtain ⟨w, hw⟩ := List.mem_iff_getElem?.mp hx
    cases x with
    | done => cases hlive
    | fetching u => exact ⟨.fetchFail w false, by simp [step, hpc, hw]⟩
    | sending links => exact ⟨.handOver w true, by simp [step, hpc, hl, hw]⟩
    | idle =>
      cases hq : s.queue with
      | cons u q => exact ⟨.dequeue w, by simp [step, hpc, hw, hq]⟩
      | nil =>
        by_cases huc : s.urlClosed = true
        · exact ⟨.finish w, by simp [step, hpc, hw, hq, huc]⟩
        simp only [Bool.not_eq_true] at huc
        by_cases hsent : s.sent = urls.length
        · exact ⟨.closeUrls, by simp [step, hpc, hss, huc, hsent]⟩
        · have hlt : s.sent < urls.length := by
            have := h.sent_le; omega
          have hget : urls[s.sent]? = some urls[s.sent] := List.getElem?_eq_getElem hlt
          refine ⟨.enqueue, ?_⟩
          have h0 : 0 < urls.length := by omega
          simp [step, hpc, hss, huc, hq, h0, hget]

theorem runFrom_inv (urls : List (List Char)) (T : Nat) :
    ∀ (sched : List Action) (s s1 : Pool), Inv urls T s →
      runFrom urls T s sched = some s1 → Inv urls T s1
  | [], s, s1, h, hr => by
    simp only [runFrom, Option.some.injEq] at hr
    subst hr; exact h
  | a :: rest, s, s1, h, hr => by
    unfold runFrom at hr
    cases hst : step urls T s a with
    | none => rw [hst] at hr; cases hr
    | some s2 =>
      rw [hst] at hr
      exact runFrom_inv urls T rest s2 s1 (step_inv urls T s s2 a h hst) hr

/-- Once `linkCh` is closed it stays closed and nothing more passes through it. -/
theorem step_after_close (urls : List (List Char)) (T : Nat) (s s1 : Pool) (a : Action)
    (hc : s.linkClosed = true) (hs : step urls T s a = some s1) :
    s1.linkClosed = true ∧ s1.pushed = s.pushed := by
  cases a <;> simp only [step] at hs <;> (repeat' split at hs) <;> (try cases hs) <;>
    first
      | exact ⟨hc, rfl⟩
      | exact ⟨rfl, rfl⟩
      | (exfalso; simp_all)

theorem runFrom_after_close (urls : List (List Char)) (T : Nat) :
    ∀ (sched : List Action) (s s1 : Pool), s.linkClosed = true →
      runFrom urls T s sched = some s1 → s1.linkClosed = true ∧ s1.pushed = s.pushed
  | [], s, s1, hc, hr => by
    simp only [runFrom, Option.some.injEq] at hr
    subst hr; exact ⟨hc, rfl⟩
  | a :: rest, s, s1, hc, hr => by
    unfold runFrom at hr
    cases hst : step urls T s a with
    | none => rw [hst] at hr; cases hr
    | some s2 =>
      rw [hst] at hr
      obtain ⟨h1, h2⟩ := step_after_close urls T s s2 a hc hst
      obtain ⟨h3, h4⟩ := runFrom_after_close urls T rest s2 s1 h1 hr
      exact ⟨h3, by rw [h4, h2]⟩

/-! ## The pool: the claim -/

/-- Once `main` has returned nothing can step. -/
theorem step_exited (urls : List (List Char)) (T : Nat) (s : Pool) (a : Action)
    (h : s.pc = .exited) : step urls T s a = none := by
  cases a <;> simp [step, h]

/-- C8 as worded fails: with one worker and two URLs there are two complete
runs (no goroutine can step at their end) in which not every URL is enqueued
and dequeued.  When `os.Create` fails, `main` returns with nothing sent on
`urlCh`; when a write fails, `main` returns with the second URL still queued
and never received by a worker. -/
theorem pool_abort_leaves_urls :
    (run sampleUrls 1 createFailSchedule = some createFailFinal ∧
      (∀ a, step sampleUrls 1 createFailFinal a = none) ∧
      createFailFinal.enq = [] ∧ createFailFinal.deq = [] ∧
      createFailFinal.linkClosed = false) ∧
    (run sampleUrls 1 writeFailSchedule = some writeFailFinal ∧
      (∀ a, step sampleUrls 1 writeFailFinal a = none) ∧
      writeFailFinal.deq.map Prod.snd = ["u1".toList] ∧
      writeFailFinal.queue = ["u2".toList] ∧
      writeFailFinal.deq.map Prod.snd ≠ sampleUrls ∧
      writeFailFinal.linkClosed = false) :=
  ⟨⟨by decide, fun a => step_exited _ _ _ a rfl, rfl, rfl, rfl⟩,
   ⟨by decide, fun a => step_exited _ _ _ a rfl, rfl, rfl, by decide, rfl⟩⟩

/-- C8, amended: with at least one worker, every schedule is finite (at most
`4 * len(urls) + 2 * T + 7` steps) and in every state it can reach: some
goroutine can step unless `main` has returned, and `main` returns only after
`linkCh` was closed or after a create or write error; the values sent on
`urlCh` are the first `sent` URLs of the list, each at most once and in order,
and all of them once `urlCh` is closed; the values received from it, each by
the one worker logged with it, followed by what is still queued, are exactly
the values sent, so no URL is received twice; every Result found by a worker
has passed through `linkCh` or is still held by that worker, blocked on the
send; no send hits a closed `linkCh`.  In every run in which `linkCh` is closed
(as it is when the success message is printed), all `T` workers have finished
before the close, every URL of the list has been sent exactly once and
received exactly once, every Result found has passed through `linkCh`, and
nothing passes through it afterwards. -/
theorem pool_exactly_once (urls : List (List Char)) (T : Nat) (sched : List Action)
    (s : Pool) (hT : 1 ≤ T) (hrun : run urls T sched = some s) :
    sched.length ≤ 4 * urls.length + 2 * T + 7 ∧
    (s.pc ≠ .exited → ∃ a s1, step urls T s a = some s1) ∧
    (s.pc = .exited →
      s.linkClosed = true ∨ Msg.createError ∈ s.out ∨ Msg.writeError ∈ s.out) ∧
    (Msg.success ∈ s.out → s.linkClosed = true) ∧
    (s.enq = urls.take s.sent ∧ (s.urlClosed = true → s.enq = urls)) ∧
    s.deq.map Prod.snd ++ s.queue = s.enq ∧
    (∀ w, resultsOf w s.produced = resultsOf w s.pushed ++ pending s.workers[w]?) ∧
    s.panicked = false ∧
    (s.linkClosed = true →
      s.workers.length = T ∧ (∀ w ∈ s.workers, w = WState.done) ∧
      s.enq = urls ∧ s.deq.map Prod.snd = urls ∧
      (∀ w, resultsOf w s.produced = resultsOf w s.pushed) ∧
      ∀ later s1, runFrom urls T s later = some s1 →
        s1.linkClosed = true ∧ s1.pushed = s.pushed) := by
  have h : Inv urls T s := runFrom_inv urls T sched _ s (Pool.init_inv urls T) hrun
  have henq : s.urlClosed = true → s.enq = urls := by
    intro hc
    rw [h.enq_eq, h.closed_sent hc, List.take_length]
  have hlen : sched.length ≤ 4 * urls.length + 2 * T + 7 := by
    have := runFrom_potential urls T sched _ s hrun
    have h0 : Pool.potential urls T Pool.init = 4 * urls.length + 2 * T + 7 := by
      simp only [Pool.potential, Pool.init, MainPc.rank, List.length_nil, List.map_nil,
        List.sum_nil, Bool.false_eq_true, if_false]
      omega
    omega
  have hprog : s.pc ≠ .exited → ∃ a s1, step urls T s a = some s1 := by
    intro hp
    obtain ⟨a, ha⟩ := step_progress urls T s h hp
    exact ⟨a, Option.isSome_iff_exists.mp ha⟩
  refine ⟨hlen, hprog, h.exit_reason, h.success_closed, ⟨h.enq_eq, henq⟩, h.deq_eq,
    h.results, h.no_panic, ?_⟩
  intro hl
  obtain ⟨hcs, hwg⟩ := h.link_closed hl
  have hlen : s.workers.length = T := h.len_eq (h.closer_pc hcs)
  have hall : ∀ w ∈ s.workers, w = WState.done := by
    intro w hw
    rw [h.wg_eq, List.countP_eq_zero] at hwg
    by_contra hne
    exact hwg w hw (live_of_ne_done w hne)
  have hdone : WState.done ∈ s.workers := by
    cases hws : s.workers with
    | nil => rw [hws] at hlen; simp only [List.length_nil] at hlen; omega
    | cons w ws =>
      have := hall w (by rw [hws]; exact List.mem_cons_self _ _)
      rw [this]; exact List.mem_cons_self _ _
  obtain ⟨huc, hq⟩ := h.done_closed hdone
  have hdeq : s.deq.map Prod.snd = urls := by
    have := h.deq_eq
    rw [hq, List.append_nil, henq huc] at this
    exact this
  refine ⟨hlen, hall, henq huc, hdeq, ?_, ?_⟩
  · intro w
    have hp : pending s.workers[w]? = [] := by
      cases hw : s.workers[w]? with
      | none => rfl
      | some x =>
        have := hall x (mem_of_getElem?_eq _ _ _ hw)
        subst this; rfl
    rw [h.results w, hp, List.append_nil]
  · intro later s1 hr
    exact runFrom_after_close urls T later s s1 hl hr

theorem pool_exactly_once_witness :
    1 ≤ 2 ∧ run sampleUrls 2 sampleSchedule = some sampleFinal ∧
    sampleFinal.linkClosed = true ∧ sampleFinal.deq.map Prod.snd = sampleUrls ∧
    (∀ w, resultsOf w sampleFinal.produced = resultsOf w sampleFinal.pushed) :=
  ⟨by decide, by decide, rfl,
    ((pool_exactly_once sampleUrls 2 sampleSchedule sampleFinal (by decide)
      (by decide)).2.2.2.2.2.2.2.2 rfl).2.2.2.1,
    ((pool_exactly_once sampleUrls 2 sampleSchedule sampleFinal (by decide)
      (by decide)).2.2.2.2.2.2.2.2 rfl).2.2.2.2.1⟩

end Urlfinder
